import Mathlib

/-!
# Header-conformance engine: shallow embedding

Lean embedding of the Python header-validation core in
`debug/check_headers.py` and `debug/check_headers_order.py`:

* `normalize_header` — the normalization pipeline of
  `check_headers_order.normalize_header` (lowercase, strip, collapse
  whitespace runs, remove whitespace adjacent to `%`);
* `EXPECTED_HEADERS`, `NORMALIZED_EXPECTED` — the canonical schema;
* `find_header_in_expected` — normalized lookup (Python returns `-1` for
  no match; modelled as `Option Nat` with `none` standing for `-1`);
* `compare_headers` / `compare_headers_order` — the exact-match and
  order-checking conformance verdicts;
* `is_valid_filename` — the monitored-corpus filename pattern
  `^.+_rnd_\d+_\d{2}_\d{2}_\d{2}_sol_\d+\.xlsx$`;
* `extract_algorithm_name` — algorithm attribution.

Strings are processed as `List Char`.  Character classes (`\s`, `\d`,
`\w`, `str.lower`) are modelled over their ASCII meaning, which covers
every schema entry and all monitored file names.
-/

/-- ASCII whitespace, the relevant fragment of the `\s` character class
and of the character set removed by `str.strip()`. -/
def pySpace (c : Char) : Bool :=
  c == ' ' || c == '\t' || c == '\n' || c == '\r' ||
    c == Char.ofNat 11 || c == Char.ofNat 12

/-- ASCII decimal digit, the relevant fragment of `\d`. -/
def isDigitCh (c : Char) : Bool :=
  '0' ≤ c && c ≤ '9'

/-- ASCII word character, the relevant fragment of `\w`. -/
def isWordChar (c : Char) : Bool :=
  ('a' ≤ c && c ≤ 'z') || ('A' ≤ c && c ≤ 'Z') || isDigitCh c || c == '_'

/-- ASCII lower-casing of one character, as `str.lower()` acts on the
ASCII range. -/
def lowerChar (c : Char) : Char :=
  if 'A' ≤ c ∧ c ≤ 'Z' then Char.ofNat (c.toNat + 32) else c

/-- `str.lower()` on a character list. -/
def lowerStr (l : List Char) : List Char :=
  l.map lowerChar

/-- Remove leading whitespace (the left half of `str.strip()`). -/
def lstrip (l : List Char) : List Char :=
  l.dropWhile pySpace

/-- Remove trailing whitespace (the right half of `str.strip()`). -/
def rstrip : List Char → List Char
  | [] => []
  | c :: r =>
    let t := rstrip r
    if pySpace c ∧ t = [] then [] else c :: t

/-- `str.strip()`: remove leading and trailing whitespace. -/
def pyStrip (l : List Char) : List Char :=
  rstrip (lstrip l)

/-- Scanner for `re.sub(r'\s+', ' ', h)`: each maximal whitespace run is
replaced by a single space.  The flag records whether the scanner is
inside a run whose replacement space was already emitted. -/
def collapseGo (inRun : Bool) : List Char → List Char
  | [] => []
  | c :: r =>
    if pySpace c then
      if inRun then collapseGo true r else ' ' :: collapseGo true r
    else
      c :: collapseGo false r

/-- `re.sub(r'\s+', ' ', h)`. -/
def collapseWs (l : List Char) : List Char :=
  collapseGo false l

/-- Scanner for `re.sub(r'\s+%', '%', h)`: a maximal whitespace run that
is immediately followed by `%` is deleted.  `pend` buffers the current
whitespace run, discarded on `%` and flushed on any other boundary. -/
def sub1Go (pend : List Char) : List Char → List Char
  | [] => pend
  | c :: r =>
    if pySpace c then
      sub1Go (pend ++ [c]) r
    else if c = '%' then
      '%' :: sub1Go [] r
    else
      pend ++ c :: sub1Go [] r

/-- `re.sub(r'\s+%', '%', h)`. -/
def subWsPct (l : List Char) : List Char :=
  sub1Go [] l

/-- Scanner for `re.sub(r'%\s+', '%', h)`: whitespace immediately
following a `%` is deleted.  The flag records whether the previously
emitted character was `%` with its trailing run still being skipped. -/
def sub2Go (afterPct : Bool) : List Char → List Char
  | [] => []
  | c :: r =>
    if afterPct ∧ pySpace c then
      sub2Go true r
    else if c = '%' then
      '%' :: sub2Go true r
    else
      c :: sub2Go false r

/-- `re.sub(r'%\s+', '%', h)`. -/
def subPctWs (l : List Char) : List Char :=
  sub2Go false l

/-- `normalize_header` from `check_headers_order.py`: `None` maps to the
empty string, otherwise lowercase, strip, collapse whitespace runs, then
remove whitespace before and after `%`, in the source order. -/
def normalize_header (header : Option String) : String :=
  match header with
  | none => ""
  | some s => String.mk (subPctWs (subWsPct (collapseWs (pyStrip (lowerStr s.data)))))

/-- The normalization described by the specification text, applying the
same elementary operations in the spec order: lower-case, collapse each
whitespace run, remove whitespace adjacent to `%`, and trim last. -/
def normalizeSpec (s : String) : String :=
  String.mk (pyStrip (subPctWs (subWsPct (collapseWs (lowerStr s.data)))))

/-- The canonical schema `EXPECTED_HEADERS` (identical in both scripts). -/
def EXPECTED_HEADERS : List String :=
  ["Makespan",
   "Avg Waiting Time",
   "Avg Execution Time",
   "Avg Finish Time",
   "Energy Use Wh",
   "Avg VM Utilization %",
   "Avg Host Utilization%",
   "Avg Host IDLE Time (s)"]

/-- `NORMALIZED_EXPECTED = [normalize_header(h) for h in EXPECTED_HEADERS]`. -/
def NORMALIZED_EXPECTED : List String :=
  EXPECTED_HEADERS.map (fun h => normalize_header (some h))

/-- Index of the first element of `l` equal to `n` (the scanning loop of
`find_header_in_expected`). -/
def findNormIdx (n : String) : List String → Option Nat
  | [] => none
  | e :: rest => if n = e then some 0 else (findNormIdx n rest).map (· + 1)

/-- `find_header_in_expected`: the first schema index whose normalized
form equals the normalized actual header; Python's `-1` is `none`. -/
def find_header_in_expected (actual : String) : Option Nat :=
  findNormIdx (normalize_header (some actual)) NORMALIZED_EXPECTED

/-- Result of reading the first row of a workbook: either the cell list
or the caught exception's message (Python returns `(None, str(e))`). -/
inductive ReadResult where
  | ok (headers : List String)
  | err (msg : String)
deriving DecidableEq, Repr

/-- One order-violation entry, the dict built by `compare_headers_order`:
1-based position, raw value found there, raw schema value expected
there, and the 1-based index where the found value should appear. -/
structure OrderIssue where
  position : Nat
  found : String
  expected : String
  found_should_be_at : Nat
deriving DecidableEq, Repr

/-- Verdict of `compare_headers_order`, as a closed sum of the script's
structured outcomes. -/
inductive Verdict where
  | conforming
  | readError (msg : String)
  | columnCountMismatch (expected actual : Nat)
  | unrecognizedColumns (details : List (Nat × String))
  | orderViolation (details : List OrderIssue)
deriving DecidableEq, Repr

/-- Verdict of the exact-match checker `compare_headers`; a mismatch
entry is (1-based position, expected raw value, actual raw value). -/
inductive ExactVerdict where
  | conforming
  | readError (msg : String)
  | columnCountMismatch (expected actual : Nat)
  | mismatch (details : List (Nat × String × String))
deriving DecidableEq, Repr

/-- `compare_headers_order` from `check_headers_order.py`. -/
def compare_headers_order (actual : ReadResult) (expected : List String) : Verdict :=
  match actual with
  | .err m => .readError m
  | .ok hs =>
    if hs.length ≠ expected.length then
      .columnCountMismatch expected.length hs.length
    else
      let actual_positions := hs.map find_header_in_expected
      let unrecognized := hs.enum.filter (fun ia => (find_header_in_expected ia.2).isNone)
      if unrecognized ≠ [] then
        .unrecognizedColumns unrecognized
      else
        let order_issues := actual_positions.enum.filterMap (fun ie =>
          match ie.2 with
          | some e =>
            if ie.1 = e then none
            else some ⟨ie.1 + 1, hs.getD ie.1 "", expected.getD ie.1 "", e + 1⟩
          | none => none)
        if order_issues = [] then .conforming else .orderViolation order_issues

/-- `compare_headers` from `check_headers.py` (exact, position-for-position). -/
def compare_headers (actual : ReadResult) (expected : List String) : ExactVerdict :=
  match actual with
  | .err m => .readError m
  | .ok hs =>
    if hs.length ≠ expected.length then
      .columnCountMismatch expected.length hs.length
    else
      let mismatches := (hs.zip expected).enum.filterMap (fun iae =>
        if iae.2.1 = iae.2.2 then none else some (iae.1 + 1, iae.2.2, iae.2.1))
      if mismatches = [] then .conforming else .mismatch mismatches

/-- Prefix test on character lists (`str.startswith` / literal regex
prefix matching). -/
def isPre : List Char → List Char → Bool
  | [], _ => true
  | _ :: _, [] => false
  | a :: p, b :: l => a == b && isPre p l

/-- `MULTI_OBJECTIVE_ALGORITHMS`. -/
def MULTI_OBJECTIVE_ALGORITHMS : List String :=
  ["MOEA_AMOSA", "MOEA_eNSGAII", "MOEA_NSGAII", "MOEA_SPEAII"]

/-- `SINGLE_OBJECTIVE_MAPPING` (folder name to file-prefix list). -/
def SINGLE_OBJECTIVE_MAPPING : List (String × List String) :=
  [("GA_AvgWait", ["GA_STT"]),
   ("GA_Energy", ["GA_POWER"]),
   ("GA_ISL_AvgWait", ["GA_STT_ISL"]),
   ("GA_ISL_Energy", ["GA_POW_ISL"]),
   ("GA_ISL_Makespan", ["GA_MKS_ISL"]),
   ("GA_MAKESPAN", ["GA_MAKESPAN"]),
   ("LJF_BEST", ["LJF_BEST"]),
   ("LJF_WORST", ["LJF_WORST"]),
   ("SA_AvgWait", ["SA_STT"]),
   ("SA_Energy", ["SA_POWER"]),
   ("SA_Makespan", ["SA_MAKESPAN"]),
   ("SJF_BEST", ["SJF_BEST"]),
   ("SJF_WORST", ["SJF_WORST"])]

/-- After the lazy group `\w+?` has consumed its characters, the rest of
the fallback pattern `(?:_eVSs|_mVSs)?_rnd_` must match here. -/
def tailOk (l : List Char) : Bool :=
  isPre "_rnd_".data l || isPre "_eVSs_rnd_".data l || isPre "_mVSs_rnd_".data l

/-- Lazy scan for the group `\w+?` of the fallback pattern: extend the
word-character block one character at a time, succeeding on the first
length at which the remainder of the pattern matches. -/
def fallbackAux (acc : List Char) : List Char → Option (List Char)
  | [] => none
  | c :: rest =>
    if isWordChar c then
      if tailOk rest then some (acc ++ [c]) else fallbackAux (acc ++ [c]) rest
    else none

/-- Group 1 of `re.match(r'^(MOEA_\w+?)(?:_eVSs|_mVSs)?_rnd_', filename)`,
or `none` when the fallback pattern does not match. -/
def moeaFallbackMatch (filename : String) : Option String :=
  if isPre "MOEA_".data filename.data then
    (fallbackAux [] (filename.data.drop 5)).map
      (fun w => String.mk ("MOEA_".data ++ w))
  else none

/-- `extract_algorithm_name`; `filename` is the path's base name and
`parent_folder` the base name of its directory (the two projections of
the path the Python function actually uses). -/
def extract_algorithm_name (filename parent_folder : String)
    (is_multi_objective : Bool) : String :=
  if is_multi_objective then
    match MULTI_OBJECTIVE_ALGORITHMS.find? (fun a => isPre a.data filename.data) with
    | some a => a
    | none =>
      match moeaFallbackMatch filename with
      | some g => g
      | none => "UNKNOWN"
  else
    if (SINGLE_OBJECTIVE_MAPPING.map Prod.fst).contains parent_folder then
      parent_folder
    else "UNKNOWN"

/-- Drop an expected literal from the front of a list, the matching of a
literal regex fragment. -/
def stripLit : List Char → List Char → Option (List Char)
  | [], l => some l
  | _ :: _, [] => none
  | a :: p, b :: l => if a == b then stripLit p l else none

/-- Match `\d\d_` on an already reversed tail: two digit characters
followed by an underscore. -/
def parseDD (l : List Char) : Option (List Char) :=
  match l with
  | a :: b :: u :: t =>
    if isDigitCh a && isDigitCh b && u == '_' then some t else none
  | _ => none

/-- Backward deterministic matcher for
`^.+_rnd_\d+_\d{2}_\d{2}_\d{2}_sol_\d+\.xlsx$` on the reversed name.
Every fixed-shape fragment is matched from the end; each `\d+` run is
maximal, which is the only candidate because its left delimiter `_` is
not a digit. -/
def matchesValidName (l : List Char) : Bool :=
  let r := l.reverse
  match stripLit ".xlsx".data.reverse r with
  | none => false
  | some r1 =>
    let d5 := r1.takeWhile isDigitCh
    let r2 := r1.dropWhile isDigitCh
    if d5.isEmpty then false
    else
      match stripLit "_sol_".data.reverse r2 with
      | none => false
      | some r3 =>
        match parseDD r3 with
        | none => false
        | some r4 =>
          match parseDD r4 with
          | none => false
          | some r5 =>
            match parseDD r5 with
            | none => false
            | some r6 =>
              let d1 := r6.takeWhile isDigitCh
              let r7 := r6.dropWhile isDigitCh
              if d1.isEmpty then false
              else
                match stripLit "_rnd_".data.reverse r7 with
                | none => false
                | some r8 => !r8.isEmpty

/-- `is_valid_filename`: anchored match of `VALID_FILENAME_PATTERN`. -/
def is_valid_filename (filename : String) : Bool :=
  matchesValidName filename.data

/-- Declarative reading of the claimed filename pattern: some split of
the name into one-or-more leading characters, `_rnd_`, a digit run, three
two-digit groups, `_sol_`, a digit run, and the `.xlsx` extension. -/
def ValidNameSpec (name : String) : Prop :=
  ∃ A D1 D2 D3 D4 D5 : List Char,
    name.data =
      A ++ "_rnd_".data ++ D1 ++ ['_'] ++ D2 ++ ['_'] ++ D3 ++ ['_'] ++ D4 ++
        "_sol_".data ++ D5 ++ ".xlsx".data ∧
    A ≠ [] ∧
    D1 ≠ [] ∧ (∀ c ∈ D1, isDigitCh c = true) ∧
    D2.length = 2 ∧ (∀ c ∈ D2, isDigitCh c = true) ∧
    D3.length = 2 ∧ (∀ c ∈ D3, isDigitCh c = true) ∧
    D4.length = 2 ∧ (∀ c ∈ D4, isDigitCh c = true) ∧
    D5 ≠ [] ∧ (∀ c ∈ D5, isDigitCh c = true)

/-! ### Adjacency invariants used for idempotence reasoning -/

/-- Two adjacent whitespace characters (forbidden in collapsed output). -/
def wwPair (a b : Char) : Bool := pySpace a && pySpace b

/-- Whitespace immediately before `%` (forbidden after `subWsPct`). -/
def wpPair (a b : Char) : Bool := pySpace a && (b == '%')

/-- Whitespace immediately after `%` (forbidden after `subPctWs`). -/
def pwPair (a b : Char) : Bool := (a == '%') && pySpace b

/-- No adjacent pair of the list satisfies `f`. -/
def okPair (f : Char → Char → Bool) : List Char → Bool
  | [] => true
  | [_] => true
  | a :: b :: t => !f a b && okPair f (b :: t)

/-- Every whitespace character of the list is a plain space. -/
def allWsSpace (l : List Char) : Bool :=
  l.all (fun c => !pySpace c || (c == ' '))

/-! ## Basic lookup lemmas -/

theorem findNormIdx_eq_none_iff (n : String) (l : List String) :
    findNormIdx n l = none ↔ ∀ e ∈ l, n ≠ e := by
  induction l with
  | nil => simp [findNormIdx]
  | cons e rest ih =>
    by_cases h : n = e
    · simp [findNormIdx, h]
    · simp [findNormIdx, h, Option.map_eq_none', ih]

theorem findNormIdx_eq_some (n : String) (l : List String) (k : Nat)
    (h : findNormIdx n l = some k) : l[k]? = some n := by
  induction l generalizing k with
  | nil => simp [findNormIdx] at h
  | cons e rest ih =>
    by_cases he : n = e
    · simp [findNormIdx, he] at h
      subst he; simp [← h]
    · simp [findNormIdx, he, Option.map_eq_some'] at h
      obtain ⟨a, ha, hk⟩ := h
      subst hk
      simpa using ih a ha

theorem findNormIdx_of_nodup (l : List String) (hnd : l.Nodup) (k : Nat) (n : String)
    (hk : l[k]? = some n) : findNormIdx n l = some k := by
  induction l generalizing k with
  | nil => simp at hk
  | cons e rest ih =>
    match k with
    | 0 =>
      simp at hk
      simp [findNormIdx, hk]
    | k + 1 =>
      simp at hk
      have hne : n ≠ e := by
        intro h
        subst h
        exact (List.nodup_cons.mp hnd).1 (List.getElem?_mem hk)
      simp only [findNormIdx, hne, if_false, Option.map_eq_some']
      exact ⟨k, ih (List.nodup_cons.mp hnd).2 k hk, rfl⟩

theorem nodup_NORMALIZED_EXPECTED : NORMALIZED_EXPECTED.Nodup := by decide

theorem find_eq_some_of_norm (s : String) (k : Nat) (hk : k < 8)
    (h : normalize_header (some s) = NORMALIZED_EXPECTED.getD k "") :
    find_header_in_expected s = some k := by
  apply findNormIdx_of_nodup _ nodup_NORMALIZED_EXPECTED
  have hk8 : k < NORMALIZED_EXPECTED.length := hk
  rw [List.getElem?_eq_getElem hk8, h, List.getD_eq_getElem _ _ hk8]

theorem find_some_norm (s : String) (k : Nat) (h : find_header_in_expected s = some k) :
    k < 8 ∧ normalize_header (some s) = NORMALIZED_EXPECTED.getD k "" := by
  have h2 := findNormIdx_eq_some _ _ _ h
  have hlt : k < NORMALIZED_EXPECTED.length := by
    by_contra hge
    rw [List.getElem?_eq_none (Nat.le_of_not_lt hge)] at h2
    exact Option.noConfusion h2
  refine ⟨hlt, ?_⟩
  rw [List.getElem?_eq_getElem hlt] at h2
  rw [List.getD_eq_getElem _ _ hlt, ← Option.some_inj, ← h2]

/-! ## Rewriting the checkers over `List.range` -/

theorem enum_eq_range_map {α : Type} (d : α) (l : List α) (n : Nat) (h : l.length = n) :
    l.enum = (List.range n).map (fun i => (i, l.getD i d)) := by
  apply List.ext_getElem (by simp [h])
  intro i h1 h2
  have hi : i < l.length := by simpa using h1
  simp only [List.getElem_enum, List.getElem_map, List.getElem_range]
  rw [List.getD_eq_getElem _ _ hi]

theorem compare_order_cases (hs : List String) (h : hs.length = 8) :
    compare_headers_order (.ok hs) EXPECTED_HEADERS =
      (if ((List.range 8).map (fun i => (i, hs.getD i ""))).filter
          (fun ia => (find_header_in_expected ia.2).isNone) ≠ [] then
        .unrecognizedColumns (((List.range 8).map (fun i => (i, hs.getD i ""))).filter
          (fun ia => (find_header_in_expected ia.2).isNone))
       else
         if (List.range 8).filterMap (fun i =>
           match find_header_in_expected (hs.getD i "") with
           | some e =>
             if i = e then none
             else some (OrderIssue.mk (i + 1) (hs.getD i "")
               (EXPECTED_HEADERS.getD i "") (e + 1))
           | none => none) = [] then .conforming
         else .orderViolation ((List.range 8).filterMap (fun i =>
           match find_header_in_expected (hs.getD i "") with
           | some e =>
             if i = e then none
             else some (OrderIssue.mk (i + 1) (hs.getD i "")
               (EXPECTED_HEADERS.getD i "") (e + 1))
           | none => none))) := by
  have hlen : ¬ hs.length ≠ EXPECTED_HEADERS.length := by simp [h, EXPECTED_HEADERS]
  have henum : hs.enum = (List.range 8).map (fun i => (i, hs.getD i "")) :=
    enum_eq_range_map "" hs 8 h
  have hmap : (hs.map find_header_in_expected).enum =
      (List.range 8).map (fun i => (i, find_header_in_expected (hs.getD i ""))) := by
    rw [enum_eq_range_map none (hs.map find_header_in_expected) 8 (by simp [h])]
    apply List.map_congr_left
    intro i hi
    have hi8 : i < hs.length := by rw [h]; exact List.mem_range.mp hi
    have hm : i < (hs.map find_header_in_expected).length := by simpa using hi8
    rw [List.getD_eq_getElem _ _ hm, List.getElem_map, List.getD_eq_getElem _ _ hi8]
  simp only [compare_headers_order, hlen, if_false, henum, hmap, List.filterMap_map]
  rfl

theorem compare_exact_cases (hs : List String) (h : hs.length = 8) :
    compare_headers (.ok hs) EXPECTED_HEADERS =
      (if (List.range 8).filterMap (fun i =>
         if hs.getD i "" = EXPECTED_HEADERS.getD i "" then none
         else some (i + 1, EXPECTED_HEADERS.getD i "", hs.getD i "")) = [] then .conforming
       else .mismatch ((List.range 8).filterMap (fun i =>
         if hs.getD i "" = EXPECTED_HEADERS.getD i "" then none
         else some (i + 1, EXPECTED_HEADERS.getD i "", hs.getD i "")))) := by
  have hlen : ¬ hs.length ≠ EXPECTED_HEADERS.length := by simp [h, EXPECTED_HEADERS]
  have hzip : (hs.zip EXPECTED_HEADERS).enum =
      (List.range 8).map (fun i => (i, (hs.getD i "", EXPECTED_HEADERS.getD i ""))) := by
    rw [enum_eq_range_map ("", "") (hs.zip EXPECTED_HEADERS) 8
      (by simp [h, EXPECTED_HEADERS])]
    apply List.map_congr_left
    intro i hi
    have hi8 : i < 8 := List.mem_range.mp hi
    have h1 : i < hs.length := by omega
    have h2 : i < EXPECTED_HEADERS.length := by simp [EXPECTED_HEADERS]; omega
    have hz : i < (hs.zip EXPECTED_HEADERS).length := by
      simp only [List.length_zip, h]
      simp [EXPECTED_HEADERS]; omega
    rw [List.getD_eq_getElem _ _ hz, List.getD_eq_getElem _ _ h1,
      List.getD_eq_getElem _ _ h2, List.getElem_zip]
  simp only [compare_headers, hlen, if_false, hzip, List.filterMap_map]
  rfl

/-! ## Claims C3, C9 -/

/-- C3: for every raw header row whose length differs from 8, both the
exact-match checker and the order checker return a column-count mismatch
with expected 8 and actual the row's length, regardless of content. -/
theorem C3_column_count_mismatch (hs : List String) (h : hs.length ≠ 8) :
    compare_headers (.ok hs) EXPECTED_HEADERS = .columnCountMismatch 8 hs.length ∧
    compare_headers_order (.ok hs) EXPECTED_HEADERS = .columnCountMismatch 8 hs.length := by
  have hlen : hs.length ≠ EXPECTED_HEADERS.length := by
    intro hc
    exact h (by simpa [EXPECTED_HEADERS] using hc)
  constructor
  · show (if hs.length ≠ EXPECTED_HEADERS.length then
        ExactVerdict.columnCountMismatch EXPECTED_HEADERS.length hs.length else _) = _
    rw [if_pos hlen]
    rfl
  · show (if hs.length ≠ EXPECTED_HEADERS.length then
        Verdict.columnCountMismatch EXPECTED_HEADERS.length hs.length else _) = _
    rw [if_pos hlen]
    rfl

theorem C3_column_count_mismatch_witness :
    compare_headers (.ok ["Makespan"]) EXPECTED_HEADERS = .columnCountMismatch 8 1 ∧
    compare_headers_order (.ok ["Makespan"]) EXPECTED_HEADERS = .columnCountMismatch 8 1 :=
  C3_column_count_mismatch ["Makespan"] (by decide)

/-- C9: the 8 schema entries are pairwise distinct under normalization,
and consequently a cell whose normalized form equals the schema entry at
index `i` resolves to exactly that index in the order-mapping step. -/
theorem C9_schema_normalized_distinct :
    List.Pairwise (fun a b => a ≠ b) NORMALIZED_EXPECTED ∧
    (∀ (s : String) (i : Nat), i < 8 →
      normalize_header (some s) = NORMALIZED_EXPECTED.getD i "" →
      find_header_in_expected s = some i) :=
  ⟨nodup_NORMALIZED_EXPECTED, find_eq_some_of_norm⟩

theorem C9_schema_normalized_distinct_witness :
    find_header_in_expected "AVG  Waiting  TIME" = some 1 :=
  C9_schema_normalized_distinct.2 "AVG  Waiting  TIME" 1 (by decide) (by decide)

/-! ## Claim C2 -/

/-- C2: an 8-cell header containing a cell whose normalized form matches
no schema entry yields `UnrecognizedColumns` listing exactly the
(position, raw value) pairs of the unmatched cells, and never an
`OrderViolation` on the same call. -/
theorem C2_unrecognized_takes_priority (hs : List String) (hlen : hs.length = 8)
    (hex : ∃ i, i < 8 ∧
      ∀ e ∈ NORMALIZED_EXPECTED, normalize_header (some (hs.getD i "")) ≠ e) :
    compare_headers_order (.ok hs) EXPECTED_HEADERS =
      .unrecognizedColumns (((List.range 8).map (fun i => (i, hs.getD i ""))).filter
        (fun ia => decide (∀ e ∈ NORMALIZED_EXPECTED, normalize_header (some ia.2) ≠ e))) ∧
    ∀ d, compare_headers_order (.ok hs) EXPECTED_HEADERS ≠ .orderViolation d := by
  have hfilter : ((List.range 8).map (fun i => (i, hs.getD i ""))).filter
      (fun ia => (find_header_in_expected ia.2).isNone) =
      ((List.range 8).map (fun i => (i, hs.getD i ""))).filter
        (fun ia => decide (∀ e ∈ NORMALIZED_EXPECTED, normalize_header (some ia.2) ≠ e)) := by
    apply List.filter_congr
    intro ia _
    cases hfind : find_header_in_expected ia.2 with
    | none =>
      have hnone := (findNormIdx_eq_none_iff _ _).mp hfind
      simp only [Option.isNone_none]
      exact (decide_eq_true hnone).symm
    | some k =>
      have hm := find_some_norm _ _ hfind
      have hnot : ¬ ∀ e ∈ NORMALIZED_EXPECTED, normalize_header (some ia.2) ≠ e := by
        intro hP
        have hklen : k < NORMALIZED_EXPECTED.length := hm.1
        have hmem : NORMALIZED_EXPECTED.getD k "" ∈ NORMALIZED_EXPECTED := by
          rw [List.getD_eq_getElem _ _ hklen]
          exact List.getElem_mem hklen
        exact hP _ hmem hm.2
      simp only [Option.isNone_some]
      exact (decide_eq_false hnot).symm
  obtain ⟨i, hi, hP⟩ := hex
  have hne : ((List.range 8).map (fun i => (i, hs.getD i ""))).filter
      (fun ia => (find_header_in_expected ia.2).isNone) ≠ [] := by
    apply List.ne_nil_of_mem (a := (i, hs.getD i ""))
    apply List.mem_filter.mpr
    refine ⟨List.mem_map.mpr ⟨i, List.mem_range.mpr hi, rfl⟩, ?_⟩
    have hfnone : find_header_in_expected (hs.getD i "") = none :=
      (findNormIdx_eq_none_iff _ _).mpr hP
    show (find_header_in_expected (hs.getD i "")).isNone = true
    rw [hfnone]
    rfl
  have hmain : compare_headers_order (.ok hs) EXPECTED_HEADERS =
      .unrecognizedColumns (((List.range 8).map (fun i => (i, hs.getD i ""))).filter
        (fun ia => decide (∀ e ∈ NORMALIZED_EXPECTED, normalize_header (some ia.2) ≠ e))) := by
    rw [compare_order_cases hs hlen, if_pos hne, hfilter]
  refine ⟨hmain, ?_⟩
  intro d hcontra
  rw [hmain] at hcontra
  exact Verdict.noConfusion hcontra

theorem C2_unrecognized_takes_priority_witness :
    compare_headers_order
      (.ok ["Banana", "Avg Waiting Time", "Avg Execution Time", "Avg Finish Time",
        "Energy Use Wh", "Avg VM Utilization %", "Avg Host Utilization%",
        "Avg Host IDLE Time (s)"]) EXPECTED_HEADERS =
      .unrecognizedColumns [(0, "Banana")] :=
  ((C2_unrecognized_takes_priority _ (by decide) ⟨0, by decide, by decide⟩).1).trans (by decide)

/-! ## Claim C10 -/

/-- C10: an 8-cell header with two cells normalizing to `makespan` and no
cell normalizing to `avg waiting time` still yields a definite verdict:
either `UnrecognizedColumns` or `OrderViolation` (the checker is a total
function, so the verdict is deterministic and the call cannot crash). -/
theorem C10_duplicate_makespan_deterministic (hs : List String) (hlen : hs.length = 8)
    (hdup : ∃ i j, i < 8 ∧ j < 8 ∧ i ≠ j ∧
      normalize_header (some (hs.getD i "")) = "makespan" ∧
      normalize_header (some (hs.getD j "")) = "makespan")
    (hmiss : ∀ i, i < 8 → normalize_header (some (hs.getD i "")) ≠ "avg waiting time") :
    (∃ d, compare_headers_order (.ok hs) EXPECTED_HEADERS = .unrecognizedColumns d) ∨
    (∃ d, compare_headers_order (.ok hs) EXPECTED_HEADERS = .orderViolation d) := by
  rw [compare_order_cases hs hlen]
  by_cases hu : ((List.range 8).map (fun i => (i, hs.getD i ""))).filter
      (fun ia => (find_header_in_expected ia.2).isNone) ≠ []
  · rw [if_pos hu]
    exact .inl ⟨_, rfl⟩
  · rw [if_neg hu]
    push_neg at hu
    have hall := List.filter_eq_nil_iff.mp hu
    have h1mem : ((1 : Nat), hs.getD 1 "") ∈
        (List.range 8).map (fun i => (i, hs.getD i "")) :=
      List.mem_map.mpr ⟨1, List.mem_range.mpr (by omega), rfl⟩
    have h1 := hall _ h1mem
    cases hfind : find_header_in_expected (hs.getD 1 "") with
    | none =>
      exfalso
      apply h1
      show (find_header_in_expected (hs.getD 1 "")).isNone = true
      rw [hfind]
      rfl
    | some e =>
      have he := find_some_norm _ _ hfind
      have hne : ¬ (1 = e) := by
        intro h1e
        have : normalize_header (some (hs.getD 1 "")) = "avg waiting time" := by
          rw [he.2, ← h1e]
          decide
        exact hmiss 1 (by omega) this
      have hoi : (List.range 8).filterMap (fun i =>
          match find_header_in_expected (hs.getD i "") with
          | some e =>
            if i = e then none
            else some (OrderIssue.mk (i + 1) (hs.getD i "")
              (EXPECTED_HEADERS.getD i "") (e + 1))
          | none => none) ≠ [] := by
        intro hnil
        have hnone := List.filterMap_eq_nil_iff.mp hnil 1 (List.mem_range.mpr (by omega))
        rw [hfind] at hnone
        simp [hne] at hnone
      rw [if_neg hoi]
      exact .inr ⟨_, rfl⟩

theorem C10_duplicate_makespan_deterministic_witness :
    (∃ d, compare_headers_order
      (.ok ["Makespan", "Makespan", "Avg Execution Time", "Avg Finish Time",
        "Energy Use Wh", "Avg VM Utilization %", "Avg Host Utilization%",
        "Avg Host IDLE Time (s)"]) EXPECTED_HEADERS = .unrecognizedColumns d) ∨
    (∃ d, compare_headers_order
      (.ok ["Makespan", "Makespan", "Avg Execution Time", "Avg Finish Time",
        "Energy Use Wh", "Avg VM Utilization %", "Avg Host Utilization%",
        "Avg Host IDLE Time (s)"]) EXPECTED_HEADERS = .orderViolation d) :=
  C10_duplicate_makespan_deterministic _ (by decide)
    ⟨0, 1, by omega, by omega, by omega, by decide, by decide⟩
    (by decide)

/-! ## Claim C4 -/

/-- C4: in exact-match mode an 8-cell header is `Conforming` iff every
position is textually identical to the schema entry at that position;
otherwise all differing positions are collected into one mismatch
report.  The schema itself is conforming under both modes. -/
theorem C4_exact_match_mode :
    (∀ hs : List String, hs.length = 8 →
      ((compare_headers (.ok hs) EXPECTED_HEADERS = .conforming ↔
          ∀ i, i < 8 → hs.getD i "" = EXPECTED_HEADERS.getD i "") ∧
       (¬ (∀ i, i < 8 → hs.getD i "" = EXPECTED_HEADERS.getD i "") →
          compare_headers (.ok hs) EXPECTED_HEADERS =
            .mismatch ((List.range 8).filterMap (fun i =>
              if hs.getD i "" = EXPECTED_HEADERS.getD i "" then none
              else some (i + 1, EXPECTED_HEADERS.getD i "", hs.getD i "")))))) ∧
    compare_headers (.ok EXPECTED_HEADERS) EXPECTED_HEADERS = .conforming ∧
    compare_headers_order (.ok EXPECTED_HEADERS) EXPECTED_HEADERS = .conforming := by
  refine ⟨?_, by decide, by decide⟩
  intro hs hlen
  have hms : ((List.range 8).filterMap (fun i =>
      if hs.getD i "" = EXPECTED_HEADERS.getD i "" then none
      else some (i + 1, EXPECTED_HEADERS.getD i "", hs.getD i "")) = []) ↔
      ∀ i, i < 8 → hs.getD i "" = EXPECTED_HEADERS.getD i "" := by
    rw [List.filterMap_eq_nil_iff]
    constructor
    · intro hnone i hi
      have := hnone i (List.mem_range.mpr hi)
      by_contra hne
      rw [if_neg hne] at this
      exact Option.noConfusion this
    · intro hall i hi
      rw [if_pos (hall i (List.mem_range.mp hi))]
  constructor
  · rw [compare_exact_cases hs hlen]
    constructor
    · intro hc
      by_cases hnil : (List.range 8).filterMap (fun i =>
          if hs.getD i "" = EXPECTED_HEADERS.getD i "" then none
          else some (i + 1, EXPECTED_HEADERS.getD i "", hs.getD i "")) = []
      · exact hms.mp hnil
      · rw [if_neg hnil] at hc
        exact absurd hc (by simp)
    · intro hall
      rw [if_pos (hms.mpr hall)]
  · intro hnall
    rw [compare_exact_cases hs hlen, if_neg (fun hnil => hnall (hms.mp hnil))]

theorem C4_exact_match_mode_witness :
    compare_headers
      (.ok ["Makespan", "Avg Waiting Time", "Avg Execution Time", "Avg Finish Time",
        "Energy Use Wh", "avg vm utilization %", "Avg Host Utilization%",
        "Avg Host IDLE Time (s)"]) EXPECTED_HEADERS =
      .mismatch [(6, "Avg VM Utilization %", "avg vm utilization %")] :=
  (((C4_exact_match_mode.1 _ (by decide)).2) (by decide)).trans (by decide)

/-! ## Claim C1 -/

theorem finRange_map_val (n : Nat) : (List.finRange n).map Fin.val = List.range n := by
  apply List.ext_getElem (by simp)
  intro i h1 h2
  simp

/-- C1: for an 8-cell header whose cells normalize to the schema entries
permuted by `p`, the order checker returns `Conforming` when `p` is the
identity, and otherwise one `OrderViolation` whose entries are exactly
the positions `i` with `p i ≠ i`, reporting the 1-based position, the
raw value found, the raw schema value expected there, and `p i + 1` as
the 1-based index where the found value belongs. -/
theorem C1_order_permutation (hs : List String) (p : Fin 8 → Fin 8)
    (hinj : Function.Injective p) (hlen : hs.length = 8)
    (hcell : ∀ i : Fin 8, normalize_header (some (hs.getD i.val "")) =
      NORMALIZED_EXPECTED.getD (p i).val "") :
    ((∀ i, p i = i) →
      compare_headers_order (.ok hs) EXPECTED_HEADERS = .conforming) ∧
    ((∃ i, p i ≠ i) →
      compare_headers_order (.ok hs) EXPECTED_HEADERS =
        .orderViolation ((List.finRange 8).filterMap (fun i =>
          if p i = i then none
          else some (OrderIssue.mk (i.val + 1) (hs.getD i.val "")
            (EXPECTED_HEADERS.getD i.val "") ((p i).val + 1))))) := by
  have hfind : ∀ i : Fin 8, find_header_in_expected (hs.getD i.val "") = some (p i).val :=
    fun i => find_eq_some_of_norm _ _ (p i).isLt (hcell i)
  have hu : ((List.range 8).map (fun i => (i, hs.getD i ""))).filter
      (fun ia => (find_header_in_expected ia.2).isNone) = [] := by
    apply List.filter_eq_nil_iff.mpr
    intro ia hia
    obtain ⟨i, hi, rfl⟩ := List.mem_map.mp hia
    have hi8 : i < 8 := List.mem_range.mp hi
    show ¬ (find_header_in_expected (hs.getD i "")).isNone = true
    rw [hfind ⟨i, hi8⟩]
    simp
  have heq : (List.range 8).filterMap (fun i =>
      match find_header_in_expected (hs.getD i "") with
      | some e =>
        if i = e then none
        else some (OrderIssue.mk (i + 1) (hs.getD i "")
          (EXPECTED_HEADERS.getD i "") (e + 1))
      | none => none) =
      (List.finRange 8).filterMap (fun i =>
        if p i = i then none
        else some (OrderIssue.mk (i.val + 1) (hs.getD i.val "")
          (EXPECTED_HEADERS.getD i.val "") ((p i).val + 1))) := by
    rw [← finRange_map_val 8, List.filterMap_map]
    apply List.filterMap_congr
    intro i _
    show (match find_header_in_expected (hs.getD i.val "") with
      | some e =>
        if i.val = e then none
        else some (OrderIssue.mk (i.val + 1) (hs.getD i.val "")
          (EXPECTED_HEADERS.getD i.val "") (e + 1))
      | none => none) = _
    rw [hfind i]
    show (if i.val = (p i).val then none
      else some (OrderIssue.mk (i.val + 1) (hs.getD i.val "")
        (EXPECTED_HEADERS.getD i.val "") ((p i).val + 1))) = _
    by_cases hpi : p i = i
    · rw [if_pos (by rw [hpi]), if_pos hpi]
    · rw [if_neg (fun h => hpi (Fin.ext h.symm)), if_neg hpi]
  have hmain : compare_headers_order (.ok hs) EXPECTED_HEADERS =
      (if (List.finRange 8).filterMap (fun i =>
          if p i = i then none
          else some (OrderIssue.mk (i.val + 1) (hs.getD i.val "")
            (EXPECTED_HEADERS.getD i.val "") ((p i).val + 1))) = [] then .conforming
       else .orderViolation ((List.finRange 8).filterMap (fun i =>
          if p i = i then none
          else some (OrderIssue.mk (i.val + 1) (hs.getD i.val "")
            (EXPECTED_HEADERS.getD i.val "") ((p i).val + 1))))) := by
    rw [compare_order_cases hs hlen, if_neg (by rw [hu]; simp), heq]
  constructor
  · intro hid
    rw [hmain, if_pos]
    apply List.filterMap_eq_nil_iff.mpr
    intro i _
    rw [if_pos (hid i)]
  · rintro ⟨j, hj⟩
    rw [hmain, if_neg]
    intro hnil
    have hf := List.filterMap_eq_nil_iff.mp hnil j (List.mem_finRange j)
    rw [if_neg hj] at hf
    exact Option.noConfusion hf

theorem C1_order_permutation_witness :
    compare_headers_order
      (.ok ["Avg Waiting Time", "Makespan", "Avg Execution Time", "Avg Finish Time",
        "Energy Use Wh", "Avg VM Utilization %", "Avg Host Utilization%",
        "Avg Host IDLE Time (s)"]) EXPECTED_HEADERS =
      .orderViolation
        [OrderIssue.mk 1 "Avg Waiting Time" "Makespan" 2,
         OrderIssue.mk 2 "Makespan" "Avg Waiting Time" 1] :=
  ((C1_order_permutation _ (fun i => if i = 0 then 1 else if i = 1 then 0 else i)
    (by decide) (by decide) (by decide)).2 ⟨0, by decide⟩).trans (by decide)

/-! ## Claim C7: filename pattern -/

theorem stripLit_eq_some_iff (p : List Char) : ∀ (l t : List Char),
    stripLit p l = some t ↔ l = p ++ t := by
  induction p with
  | nil => intro l t; simp [stripLit]
  | cons a p ih =>
    intro l t
    cases l with
    | nil => simp [stripLit]
    | cons b l =>
      by_cases hab : a = b
      · subst hab
        simp [stripLit, ih]
      · simp [stripLit, hab, Ne.symm hab]

theorem stripLit_append (p t : List Char) : stripLit p (p ++ t) = some t :=
  (stripLit_eq_some_iff p _ t).mpr rfl

theorem digits_boundary (xs : List Char) (hxs : ∀ c ∈ xs, isDigitCh c = true)
    (y : Char) (ys : List Char) (hy : isDigitCh y = false) :
    (xs ++ y :: ys).takeWhile isDigitCh = xs ∧
    (xs ++ y :: ys).dropWhile isDigitCh = y :: ys := by
  constructor
  · rw [List.takeWhile_append_of_pos hxs, List.takeWhile_cons, hy]
    simp
  · rw [List.dropWhile_append_of_pos hxs, List.dropWhile_cons, hy]
    simp

theorem parseDD_eq_some_iff (l t : List Char) :
    parseDD l = some t ↔
      ∃ a b, l = a :: b :: '_' :: t ∧ isDigitCh a = true ∧ isDigitCh b = true := by
  constructor
  · intro h
    match l, h with
    | a :: b :: u :: t', h =>
      simp only [parseDD] at h
      by_cases hcond : (isDigitCh a && isDigitCh b && u == '_') = true
      · rw [if_pos hcond] at h
        simp only [Bool.and_eq_true, beq_iff_eq] at hcond
        obtain ⟨⟨ha, hb⟩, hu⟩ := hcond
        cases h
        exact ⟨a, b, by rw [hu], ha, hb⟩
      · rw [if_neg hcond] at h
        exact absurd h (by simp)
  · rintro ⟨a, b, rfl, ha, hb⟩
    simp [parseDD, ha, hb]

theorem matches_sound (l : List Char) (h : matchesValidName l = true) :
    ∃ A D1 D2 D3 D4 D5 : List Char,
      l = A ++ "_rnd_".data ++ D1 ++ ['_'] ++ D2 ++ ['_'] ++ D3 ++ ['_'] ++ D4 ++
        "_sol_".data ++ D5 ++ ".xlsx".data ∧
      A ≠ [] ∧
      D1 ≠ [] ∧ (∀ c ∈ D1, isDigitCh c = true) ∧
      D2.length = 2 ∧ (∀ c ∈ D2, isDigitCh c = true) ∧
      D3.length = 2 ∧ (∀ c ∈ D3, isDigitCh c = true) ∧
      D4.length = 2 ∧ (∀ c ∈ D4, isDigitCh c = true) ∧
      D5 ≠ [] ∧ (∀ c ∈ D5, isDigitCh c = true) := by
  simp only [matchesValidName] at h
  split at h
  · exact absurd h (by simp)
  · rename_i r1 h1
    split at h
    · exact absurd h (by simp)
    · rename_i hd5
      split at h
      · exact absurd h (by simp)
      · rename_i r3 h3
        split at h
        · exact absurd h (by simp)
        · rename_i r4 h4
          split at h
          · exact absurd h (by simp)
          · rename_i r5 h5
            split at h
            · exact absurd h (by simp)
            · rename_i r6 h6
              split at h
              · exact absurd h (by simp)
              · rename_i hd1
                split at h
                · exact absurd h (by simp)
                · rename_i r8 h8
                  have hr8ne : r8 ≠ [] := by simpa using h
                  have hb1 : l.reverse = ['.', 'x', 'l', 's', 'x'].reverse ++ r1 :=
                    (stripLit_eq_some_iff _ _ _).mp h1
                  have hsplit5 : r1 =
                      r1.takeWhile isDigitCh ++ r1.dropWhile isDigitCh :=
                    (List.takeWhile_append_dropWhile _ _).symm
                  have hb3 : r1.dropWhile isDigitCh =
                      ['_', 's', 'o', 'l', '_'].reverse ++ r3 :=
                    (stripLit_eq_some_iff _ _ _).mp h3
                  obtain ⟨a4, b4, hr3, ha4, hb4⟩ := (parseDD_eq_some_iff _ _).mp h4
                  obtain ⟨a3, b3, hr4, ha3, hb3d⟩ := (parseDD_eq_some_iff _ _).mp h5
                  obtain ⟨a2, b2, hr5, ha2, hb2⟩ := (parseDD_eq_some_iff _ _).mp h6
                  have hsplit1 : r6 =
                      r6.takeWhile isDigitCh ++ r6.dropWhile isDigitCh :=
                    (List.takeWhile_append_dropWhile _ _).symm
                  have hb8 : r6.dropWhile isDigitCh =
                      ['_', 'r', 'n', 'd', '_'].reverse ++ r8 :=
                    (stripLit_eq_some_iff _ _ _).mp h8
                  have hd5ne : r1.takeWhile isDigitCh ≠ [] := by
                    simpa [List.isEmpty_iff] using hd5
                  have hd1ne : r6.takeWhile isDigitCh ≠ [] := by
                    simpa [List.isEmpty_iff] using hd1
                  rw [hsplit5, hb3, hr3, hr4, hr5, hsplit1, hb8] at hb1
                  refine ⟨r8.reverse, (r6.takeWhile isDigitCh).reverse, [b2, a2],
                    [b3, a3], [b4, a4], (r1.takeWhile isDigitCh).reverse,
                    ?_, by simpa using hr8ne, by simpa using hd1ne, ?_, rfl, ?_,
                    rfl, ?_, rfl, ?_, by simpa using hd5ne, ?_⟩
                  · have e1 : "_rnd_".data = ['_', 'r', 'n', 'd', '_'] := rfl
                    have e2 : "_sol_".data = ['_', 's', 'o', 'l', '_'] := rfl
                    have e3 : ".xlsx".data = ['.', 'x', 'l', 's', 'x'] := rfl
                    rw [← List.reverse_reverse l, hb1, e1, e2, e3]
                    simp [List.reverse_append, List.append_assoc]
                  · intro c hc
                    rw [List.mem_reverse] at hc
                    exact List.mem_takeWhile_imp hc
                  · intro c hc
                    simp only [List.mem_cons, List.not_mem_nil, or_false] at hc
                    rcases hc with rfl | rfl
                    · exact hb2
                    · exact ha2
                  · intro c hc
                    simp only [List.mem_cons, List.not_mem_nil, or_false] at hc
                    rcases hc with rfl | rfl
                    · exact hb3d
                    · exact ha3
                  · intro c hc
                    simp only [List.mem_cons, List.not_mem_nil, or_false] at hc
                    rcases hc with rfl | rfl
                    · exact hb4
                    · exact ha4
                  · intro c hc
                    rw [List.mem_reverse] at hc
                    exact List.mem_takeWhile_imp hc

theorem matches_complete (A D1 D2 D3 D4 D5 : List Char)
    (hA : A ≠ []) (hD1 : D1 ≠ []) (hD1d : ∀ c ∈ D1, isDigitCh c = true)
    (hD2 : D2.length = 2) (hD2d : ∀ c ∈ D2, isDigitCh c = true)
    (hD3 : D3.length = 2) (hD3d : ∀ c ∈ D3, isDigitCh c = true)
    (hD4 : D4.length = 2) (hD4d : ∀ c ∈ D4, isDigitCh c = true)
    (hD5 : D5 ≠ []) (hD5d : ∀ c ∈ D5, isDigitCh c = true) :
    matchesValidName (A ++ "_rnd_".data ++ D1 ++ ['_'] ++ D2 ++ ['_'] ++ D3 ++ ['_'] ++
      D4 ++ "_sol_".data ++ D5 ++ ".xlsx".data) = true := by
  obtain ⟨x2, y2, rfl⟩ := List.length_eq_two.mp hD2
  obtain ⟨x3, y3, rfl⟩ := List.length_eq_two.mp hD3
  obtain ⟨x4, y4, rfl⟩ := List.length_eq_two.mp hD4
  have hx2 : isDigitCh x2 = true := hD2d x2 (by simp)
  have hy2 : isDigitCh y2 = true := hD2d y2 (by simp)
  have hx3 : isDigitCh x3 = true := hD3d x3 (by simp)
  have hy3 : isDigitCh y3 = true := hD3d y3 (by simp)
  have hx4 : isDigitCh x4 = true := hD4d x4 (by simp)
  have hy4 : isDigitCh y4 = true := hD4d y4 (by simp)
  have hrev5 : ∀ c ∈ D5.reverse, isDigitCh c = true := by
    intro c hc
    exact hD5d c (List.mem_reverse.mp hc)
  have hrev1 : ∀ c ∈ D1.reverse, isDigitCh c = true := by
    intro c hc
    exact hD1d c (List.mem_reverse.mp hc)
  have E1 : stripLit ['.', 'x', 'l', 's', 'x'].reverse
      (A ++ "_rnd_".data ++ D1 ++ ['_'] ++ [x2, y2] ++ ['_'] ++ [x3, y3] ++ ['_'] ++
        [x4, y4] ++ "_sol_".data ++ D5 ++ ".xlsx".data).reverse =
      some (D5.reverse ++ '_' :: 'l' :: 'o' :: 's' :: '_' :: y4 :: x4 :: '_' ::
        y3 :: x3 :: '_' :: y2 :: x2 :: '_' ::
        (D1.reverse ++ '_' :: 'd' :: 'n' :: 'r' :: '_' :: A.reverse)) := by
    apply (stripLit_eq_some_iff _ _ _).mpr
    have e1 : "_rnd_".data = ['_', 'r', 'n', 'd', '_'] := rfl
    have e2 : "_sol_".data = ['_', 's', 'o', 'l', '_'] := rfl
    have e3 : ".xlsx".data = ['.', 'x', 'l', 's', 'x'] := rfl
    rw [e1, e2, e3]
    simp [List.reverse_append, List.append_assoc]
  have hbound5 := digits_boundary D5.reverse hrev5 '_'
    ('l' :: 'o' :: 's' :: '_' :: y4 :: x4 :: '_' :: y3 :: x3 :: '_' :: y2 :: x2 :: '_' ::
      (D1.reverse ++ '_' :: 'd' :: 'n' :: 'r' :: '_' :: A.reverse)) (by decide)
  have hbound1 := digits_boundary D1.reverse hrev1 '_'
    ('d' :: 'n' :: 'r' :: '_' :: A.reverse) (by decide)
  have E3 : stripLit ['_', 's', 'o', 'l', '_'].reverse
      ('_' :: 'l' :: 'o' :: 's' :: '_' :: y4 :: x4 :: '_' :: y3 :: x3 :: '_' ::
        y2 :: x2 :: '_' :: (D1.reverse ++ '_' :: 'd' :: 'n' :: 'r' :: '_' :: A.reverse)) =
      some (y4 :: x4 :: '_' :: y3 :: x3 :: '_' :: y2 :: x2 :: '_' ::
        (D1.reverse ++ '_' :: 'd' :: 'n' :: 'r' :: '_' :: A.reverse)) := by
    apply (stripLit_eq_some_iff _ _ _).mpr
    simp
  have E4 : parseDD (y4 :: x4 :: '_' :: y3 :: x3 :: '_' :: y2 :: x2 :: '_' ::
      (D1.reverse ++ '_' :: 'd' :: 'n' :: 'r' :: '_' :: A.reverse)) =
      some (y3 :: x3 :: '_' :: y2 :: x2 :: '_' ::
        (D1.reverse ++ '_' :: 'd' :: 'n' :: 'r' :: '_' :: A.reverse)) := by
    simp [parseDD, hx4, hy4]
  have E5 : parseDD (y3 :: x3 :: '_' :: y2 :: x2 :: '_' ::
      (D1.reverse ++ '_' :: 'd' :: 'n' :: 'r' :: '_' :: A.reverse)) =
      some (y2 :: x2 :: '_' :: (D1.reverse ++ '_' :: 'd' :: 'n' :: 'r' :: '_' :: A.reverse)) := by
    simp [parseDD, hx3, hy3]
  have E6 : parseDD (y2 :: x2 :: '_' :: (D1.reverse ++ '_' :: 'd' :: 'n' :: 'r' :: '_' :: A.reverse)) =
      some (D1.reverse ++ '_' :: 'd' :: 'n' :: 'r' :: '_' :: A.reverse) := by
    simp [parseDD, hx2, hy2]
  have E8 : stripLit ['_', 'r', 'n', 'd', '_'].reverse
      ('_' :: 'd' :: 'n' :: 'r' :: '_' :: A.reverse) = some A.reverse := by
    apply (stripLit_eq_some_iff _ _ _).mpr
    simp
  simp only [matchesValidName, E1, hbound5.1, hbound5.2, E3, E4, E5, E6,
    hbound1.1, hbound1.2, E8]
  simp [hA, hD1, hD5]

/-- C7: `is_valid_filename` accepts exactly the names made of one or more
leading characters, `_rnd_`, a digit run, three two-digit groups,
`_sol_`, a digit run, and the `.xlsx` extension; in particular the
sample monitored name is accepted and `notes.xlsx` is rejected. -/
theorem C7_is_monitored_pattern :
    (∀ name : String, is_valid_filename name = true ↔ ValidNameSpec name) ∧
    is_valid_filename "MOEA_AMOSA_rnd_7_01_02_03_sol_1.xlsx" = true ∧
    is_valid_filename "notes.xlsx" = false := by
  refine ⟨?_, by decide, by decide⟩
  intro name
  constructor
  · intro h
    exact matches_sound name.data h
  · rintro ⟨A, D1, D2, D3, D4, D5, heq, hA, h1, h1d, h2, h2d, h3, h3d, h4, h4d, h5, h5d⟩
    show matchesValidName name.data = true
    rw [heq]
    exact matches_complete A D1 D2 D3 D4 D5 hA h1 h1d h2 h2d h3 h3d h4 h4d h5 h5d

theorem C7_is_monitored_pattern_witness :
    is_valid_filename "MOEA_X_rnd_12_01_02_03_sol_99.xlsx" = true :=
  (C7_is_monitored_pattern.1 _).mpr
    ⟨"MOEA_X".data, "12".data, "01".data, "02".data, "03".data, "99".data,
      by decide, by decide, by decide, by decide, by decide, by decide,
      by decide, by decide, by decide, by decide, by decide, by decide⟩

/-! ## Claim C8: algorithm attribution -/

theorem isPre_iff_append (p : List Char) : ∀ l : List Char,
    isPre p l = true ↔ ∃ t, l = p ++ t := by
  induction p with
  | nil => intro l; simp [isPre]
  | cons a p ih =>
    intro l
    cases l with
    | nil => simp [isPre]
    | cons b l =>
      by_cases hab : a = b
      · subst hab
        simp [isPre, ih]
      · simp [isPre, hab, Ne.symm hab]

theorem isPre_append_self (p t : List Char) : isPre p (p ++ t) = true :=
  (isPre_iff_append p _).mpr ⟨t, rfl⟩

theorem isPre_of_isPre (p : List Char) : ∀ (q l : List Char),
    isPre p l = true → isPre q l = true → p.length ≤ q.length → isPre p q = true := by
  induction p with
  | nil => intro q l _ _ _; simp [isPre]
  | cons a p ih =>
    intro q l hp hq hlen
    cases l with
    | nil => simp [isPre] at hp
    | cons c l =>
      cases q with
      | nil => simp at hlen
      | cons b q =>
        simp only [isPre, Bool.and_eq_true, beq_iff_eq] at hp hq ⊢
        refine ⟨hp.1.trans hq.1.symm, ?_⟩
        exact ih q l hp.2 hq.2 (by simpa using hlen)

theorem fallbackAux_sound : ∀ (l acc w : List Char), fallbackAux acc l = some w →
    ∃ W Q rest, l = W ++ Q ++ "_rnd_".data ++ rest ∧ w = acc ++ W ∧ W ≠ [] ∧
      (∀ c ∈ W, isWordChar c = true) ∧
      (Q = [] ∨ Q = "_eVSs".data ∨ Q = "_mVSs".data) := by
  intro l
  induction l with
  | nil => intro acc w h; simp [fallbackAux] at h
  | cons c rest ih =>
    intro acc w h
    simp only [fallbackAux] at h
    by_cases hw : isWordChar c = true
    · rw [if_pos hw] at h
      by_cases ht : tailOk rest = true
      · rw [if_pos ht] at h
        have hwe : w = acc ++ [c] := (Option.some_inj.mp h).symm
        have ht' := ht
        simp only [tailOk, Bool.or_eq_true] at ht'
        clear h ht
        rcases ht' with (h1 | h1) | h1
        · obtain ⟨t, rfl⟩ := (isPre_iff_append _ _).mp h1
          exact ⟨[c], [], t, by simp, hwe, by simp, by simp [hw], .inl rfl⟩
        · obtain ⟨t, rfl⟩ := (isPre_iff_append _ _).mp h1
          refine ⟨[c], "_eVSs".data, t, ?_, hwe, by simp, by simp [hw], .inr (.inl rfl)⟩
          show c :: "_eVSs_rnd_".data ++ t = [c] ++ "_eVSs".data ++ "_rnd_".data ++ t
          simp
        · obtain ⟨t, rfl⟩ := (isPre_iff_append _ _).mp h1
          refine ⟨[c], "_mVSs".data, t, ?_, hwe, by simp, by simp [hw], .inr (.inr rfl)⟩
          show c :: "_mVSs_rnd_".data ++ t = [c] ++ "_mVSs".data ++ "_rnd_".data ++ t
          simp
      · rw [if_neg ht] at h
        obtain ⟨W, Q, rest', heq, hwacc, hWne, hWw, hQ⟩ := ih (acc ++ [c]) w h
        refine ⟨c :: W, Q, rest', by simp [heq], ?_, by simp, ?_, hQ⟩
        · rw [hwacc]
          simp
        · intro d hd
          rcases List.mem_cons.mp hd with rfl | hd'
          · exact hw
          · exact hWw d hd'
    · rw [if_neg hw] at h
      exact absurd h (by simp)

theorem fallbackAux_complete : ∀ (W : List Char), W ≠ [] →
    (∀ c ∈ W, isWordChar c = true) →
    ∀ (Q rest acc : List Char), (Q = [] ∨ Q = "_eVSs".data ∨ Q = "_mVSs".data) →
    (fallbackAux acc (W ++ Q ++ "_rnd_".data ++ rest)).isSome = true := by
  intro W
  induction W with
  | nil => intro h; exact absurd rfl h
  | cons c W ih =>
    intro _ hWw Q rest acc hQ
    have hw : isWordChar c = true := hWw c (by simp)
    show (fallbackAux acc (c :: (W ++ Q ++ "_rnd_".data ++ rest) )).isSome = true
    simp only [fallbackAux, if_pos hw]
    by_cases ht : tailOk (W ++ Q ++ "_rnd_".data ++ rest) = true
    · rw [if_pos ht]
      rfl
    · rw [if_neg ht]
      cases W with
      | nil =>
        exfalso
        apply ht
        simp only [tailOk, Bool.or_eq_true]
        rcases hQ with rfl | rfl | rfl
        · exact .inl (.inl (by simpa using isPre_append_self "_rnd_".data rest))
        · refine .inl (.inr ?_)
          have heq : ([] : List Char) ++ "_eVSs".data ++ "_rnd_".data ++ rest =
              "_eVSs_rnd_".data ++ rest := by simp
          rw [heq]
          exact isPre_append_self _ _
        · refine .inr ?_
          have heq : ([] : List Char) ++ "_mVSs".data ++ "_rnd_".data ++ rest =
              "_mVSs_rnd_".data ++ rest := by simp
          rw [heq]
          exact isPre_append_self _ _
      | cons d W' =>
        exact ih (by simp) (fun x hx => hWw x (List.mem_cons_of_mem c hx)) Q rest
          (acc ++ [c]) hQ

theorem moeaFallback_some_iff (fn g : String) (h : moeaFallbackMatch fn = some g) :
    ∃ W Q rest, fn.data = "MOEA_".data ++ W ++ Q ++ "_rnd_".data ++ rest ∧
      g.data = "MOEA_".data ++ W ∧ W ≠ [] ∧ (∀ c ∈ W, isWordChar c = true) ∧
      (Q = [] ∨ Q = "_eVSs".data ∨ Q = "_mVSs".data) := by
  simp only [moeaFallbackMatch] at h
  by_cases hp : isPre "MOEA_".data fn.data = true
  · rw [if_pos hp, Option.map_eq_some'] at h
    obtain ⟨w, hw, hg⟩ := h
    obtain ⟨t, hfn⟩ := (isPre_iff_append _ _).mp hp
    have hdrop : fn.data.drop 5 = t := by
      rw [hfn]
      exact List.drop_left' rfl
    rw [hdrop] at hw
    obtain ⟨W, Q, rest, ht, hwW, hWne, hWw, hQ⟩ := fallbackAux_sound t [] w hw
    refine ⟨W, Q, rest, ?_, ?_, hWne, hWw, hQ⟩
    · rw [hfn, ht]
      simp
    · rw [← hg]
      show "MOEA_".data ++ w = "MOEA_".data ++ W
      rw [hwW]
      simp
  · rw [if_neg hp] at h
    exact absurd h (by simp)

theorem moeaFallback_none_iff (fn : String) (h : moeaFallbackMatch fn = none) :
    ¬ ∃ W Q rest, fn.data = "MOEA_".data ++ W ++ Q ++ "_rnd_".data ++ rest ∧
      W ≠ [] ∧ (∀ c ∈ W, isWordChar c = true) ∧
      (Q = [] ∨ Q = "_eVSs".data ∨ Q = "_mVSs".data) := by
  rintro ⟨W, Q, rest, hfn, hWne, hWw, hQ⟩
  have hassoc : "MOEA_".data ++ W ++ Q ++ "_rnd_".data ++ rest =
      "MOEA_".data ++ (W ++ Q ++ "_rnd_".data ++ rest) := by simp
  have hp : isPre "MOEA_".data fn.data = true := by
    rw [hfn, hassoc]
    exact isPre_append_self _ _
  simp only [moeaFallbackMatch, if_pos hp, Option.map_eq_none'] at h
  have hdrop : fn.data.drop 5 = W ++ Q ++ "_rnd_".data ++ rest := by
    rw [hfn, hassoc]
    exact List.drop_left' rfl
  rw [hdrop] at h
  have hcomp := fallbackAux_complete W hWne hWw Q rest [] hQ
  rw [h] at hcomp
  simp at hcomp

/-- C8: `extract_algorithm_name` is total and deterministic.  In
multi-objective mode the first of the four known prefixes that the base
name starts with wins; failing that, the fallback extraction of a
`MOEA_<word>` name (optional `_eVSs`/`_mVSs` qualifier stripped before
the `_rnd_` marker) is used; failing that, `UNKNOWN`.  In
single-objective mode the parent folder name is returned unchanged iff
it is one of the 13 mapped directory names, else `UNKNOWN`. -/
theorem C8_extract_algorithm_identity :
    (∀ fn pf : String, ∀ a ∈ MULTI_OBJECTIVE_ALGORITHMS,
      isPre a.data fn.data = true → extract_algorithm_name fn pf true = a) ∧
    (∀ fn pf : String,
      (∀ a ∈ MULTI_OBJECTIVE_ALGORITHMS, ¬ isPre a.data fn.data = true) →
      (∀ g, moeaFallbackMatch fn = some g →
        extract_algorithm_name fn pf true = g ∧
        ∃ W Q rest, fn.data = "MOEA_".data ++ W ++ Q ++ "_rnd_".data ++ rest ∧
          g.data = "MOEA_".data ++ W ∧ W ≠ [] ∧ (∀ c ∈ W, isWordChar c = true) ∧
          (Q = [] ∨ Q = "_eVSs".data ∨ Q = "_mVSs".data)) ∧
      (moeaFallbackMatch fn = none →
        extract_algorithm_name fn pf true = "UNKNOWN" ∧
        ¬ ∃ W Q rest, fn.data = "MOEA_".data ++ W ++ Q ++ "_rnd_".data ++ rest ∧
          W ≠ [] ∧ (∀ c ∈ W, isWordChar c = true) ∧
          (Q = [] ∨ Q = "_eVSs".data ∨ Q = "_mVSs".data))) ∧
    (∀ fn pf : String,
      (pf ∈ SINGLE_OBJECTIVE_MAPPING.map Prod.fst →
        extract_algorithm_name fn pf false = pf) ∧
      (pf ∉ SINGLE_OBJECTIVE_MAPPING.map Prod.fst →
        extract_algorithm_name fn pf false = "UNKNOWN")) := by
  refine ⟨?_, ?_, ?_⟩
  · intro fn pf a ha hpre
    have hlist : MULTI_OBJECTIVE_ALGORITHMS =
        ["MOEA_AMOSA", "MOEA_eNSGAII", "MOEA_NSGAII", "MOEA_SPEAII"] := rfl
    show (match MULTI_OBJECTIVE_ALGORITHMS.find? (fun a => isPre a.data fn.data) with
      | some a => a
      | none => match moeaFallbackMatch fn with
        | some g => g
        | none => "UNKNOWN") = a
    fin_cases ha
    · rw [hlist]
      simp [hpre]
    · have hA : ¬ isPre "MOEA_AMOSA".data fn.data = true := fun hc =>
        absurd (isPre_of_isPre _ _ _ hc hpre (by decide)) (by decide)
      rw [hlist]
      simp [hpre, hA]
    · have hA : ¬ isPre "MOEA_AMOSA".data fn.data = true := fun hc =>
        absurd (isPre_of_isPre _ _ _ hc hpre (by decide)) (by decide)
      have hE : ¬ isPre "MOEA_eNSGAII".data fn.data = true := fun hc =>
        absurd (isPre_of_isPre _ _ _ hpre hc (by decide)) (by decide)
      rw [hlist]
      simp [hpre, hA, hE]
    · have hA : ¬ isPre "MOEA_AMOSA".data fn.data = true := fun hc =>
        absurd (isPre_of_isPre _ _ _ hc hpre (by decide)) (by decide)
      have hE : ¬ isPre "MOEA_eNSGAII".data fn.data = true := fun hc =>
        absurd (isPre_of_isPre _ _ _ hpre hc (by decide)) (by decide)
      have hN : ¬ isPre "MOEA_NSGAII".data fn.data = true := fun hc =>
        absurd (isPre_of_isPre _ _ _ hpre hc (by decide)) (by decide)
      rw [hlist]
      simp [hpre, hA, hE, hN]
  · intro fn pf hnp
    have hfind : MULTI_OBJECTIVE_ALGORITHMS.find? (fun a => isPre a.data fn.data) = none :=
      List.find?_eq_none.mpr hnp
    constructor
    · intro g hg
      refine ⟨?_, moeaFallback_some_iff fn g hg⟩
      show (match MULTI_OBJECTIVE_ALGORITHMS.find? (fun a => isPre a.data fn.data) with
        | some a => a
        | none => match moeaFallbackMatch fn with
          | some g => g
          | none => "UNKNOWN") = g
      rw [hfind, hg]
    · intro hg
      refine ⟨?_, moeaFallback_none_iff fn hg⟩
      show (match MULTI_OBJECTIVE_ALGORITHMS.find? (fun a => isPre a.data fn.data) with
        | some a => a
        | none => match moeaFallbackMatch fn with
          | some g => g
          | none => "UNKNOWN") = "UNKNOWN"
      rw [hfind, hg]
  · intro fn pf
    constructor
    · intro hmem
      have hc : (SINGLE_OBJECTIVE_MAPPING.map Prod.fst).contains pf = true :=
        List.elem_iff.mpr hmem
      show (if (SINGLE_OBJECTIVE_MAPPING.map Prod.fst).contains pf = true
        then pf else "UNKNOWN") = pf
      rw [if_pos hc]
    · intro hmem
      have hc : ¬ (SINGLE_OBJECTIVE_MAPPING.map Prod.fst).contains pf = true :=
        fun hcc => hmem (List.elem_iff.mp hcc)
      show (if (SINGLE_OBJECTIVE_MAPPING.map Prod.fst).contains pf = true
        then pf else "UNKNOWN") = "UNKNOWN"
      rw [if_neg hc]

theorem C8_extract_algorithm_identity_witness :
    extract_algorithm_name "MOEA_AMOSA_rnd_7_01_02_03_sol_1.xlsx" "" true = "MOEA_AMOSA" ∧
    extract_algorithm_name "GA_STT_rnd_3_00_00_01_sol_1.xlsx" "GA_AvgWait" false =
      "GA_AvgWait" :=
  ⟨C8_extract_algorithm_identity.1 _ "" "MOEA_AMOSA" (by decide) (by decide),
   (C8_extract_algorithm_identity.2.2 _ "GA_AvgWait").1 (by decide)⟩

/-! ## Claim C5: normalization pipeline reordering -/

theorem pySpace_pct : pySpace '%' = false := by decide

theorem ws_ne_pct {c : Char} (h : pySpace c = true) : ¬ c = '%' := by
  intro hc
  rw [hc] at h
  exact absurd h (by decide)

theorem rstrip_nil : rstrip [] = [] := rfl

theorem rstrip_cons (c : Char) (r : List Char) :
    rstrip (c :: r) = if pySpace c ∧ rstrip r = [] then [] else c :: rstrip r := rfl

theorem rstrip_eq_nil_iff (l : List Char) :
    rstrip l = [] ↔ ∀ c ∈ l, pySpace c = true := by
  induction l with
  | nil => simp [rstrip_nil]
  | cons c r ih =>
    rw [rstrip_cons]
    by_cases h : pySpace c ∧ rstrip r = []
    · rw [if_pos h]
      simp only [List.mem_cons, true_iff]
      intro x hx
      rcases hx with rfl | hx
      · exact h.1
      · exact (ih.mp h.2) x hx
    · rw [if_neg h]
      simp only [List.mem_cons]
      constructor
      · intro hc
        exact absurd hc (List.cons_ne_nil c (rstrip r))
      · intro hall
        exfalso
        apply h
        exact ⟨hall c (.inl rfl), ih.mpr (fun x hx => hall x (.inr hx))⟩

theorem rstrip_append (x : List Char) : ∀ y : List Char,
    rstrip (x ++ y) = if rstrip y = [] then rstrip x else x ++ rstrip y := by
  induction x with
  | nil =>
    intro y
    by_cases h : rstrip y = [] <;> simp [h, rstrip_nil]
  | cons c x ih =>
    intro y
    rw [List.cons_append, rstrip_cons, ih y]
    by_cases h : rstrip y = []
    · simp [h, rstrip_cons]
    · have hne : x ++ rstrip y ≠ [] := by
        intro hnil
        rcases List.append_eq_nil.mp hnil with ⟨-, h2⟩
        exact h h2
      simp [h, hne]

theorem collapseGo_all_ws (l : List Char) (h : ∀ c ∈ l, pySpace c = true) :
    collapseGo true l = [] := by
  induction l with
  | nil => rfl
  | cons c r ih =>
    have hc : pySpace c = true := h c (List.mem_cons_self _ _)
    simp only [collapseGo, hc, if_pos, if_true]
    exact ih (fun x hx => h x (List.mem_cons_of_mem c hx))

theorem collapseGo_exists_nonws (l : List Char) (h : ∃ c ∈ l, pySpace c = false) :
    ∀ b, ∃ c ∈ collapseGo b l, pySpace c = false := by
  induction l with
  | nil => simp at h
  | cons c r ih =>
    intro b
    obtain ⟨d, hd, hdw⟩ := h
    by_cases hc : pySpace c = true
    · have hr : ∃ c ∈ r, pySpace c = false := by
        rcases List.mem_cons.mp hd with rfl | hd'
        · rw [hc] at hdw
          exact absurd hdw (by simp)
        · exact ⟨d, hd', hdw⟩
      simp only [collapseGo, hc, if_true]
      by_cases hb : b
      · subst hb
        rw [if_pos rfl]
        exact ih hr true
      · have hb' : b = false := Bool.eq_false_iff.mpr hb
        subst hb'
        rw [if_neg (by simp)]
        obtain ⟨e, he, hew⟩ := ih hr true
        exact ⟨e, List.mem_cons_of_mem ' ' he, hew⟩
    · have hc' : pySpace c = false := Bool.eq_false_iff.mpr hc
      simp only [collapseGo, hc, if_false]
      exact ⟨c, List.mem_cons_self c _, hc'⟩

theorem lstrip_collapseGo (l : List Char) : ∀ b : Bool,
    lstrip (collapseGo b l) = collapseGo false (lstrip l) := by
  induction l with
  | nil => intro b; rfl
  | cons c r ih =>
    intro b
    by_cases hc : pySpace c = true
    · have h1 : lstrip (collapseGo b (c :: r)) = lstrip (collapseGo true r) := by
        simp only [collapseGo, hc, if_true]
        by_cases hb : b
        · subst hb
          rw [if_pos rfl]
        · have hb' : b = false := by simpa using hb
          subst hb'
          rw [if_neg (by simp)]
          simp [lstrip, List.dropWhile_cons, (by decide : pySpace ' ' = true)]
      rw [h1, ih true]
      have h2 : lstrip (c :: r) = lstrip r := by
        simp [lstrip, List.dropWhile_cons, hc]
      rw [h2]
    · have hc' : pySpace c = false := by simpa using hc
      simp only [collapseGo, hc', Bool.false_eq_true, if_false]
      have h1 : lstrip (c :: collapseGo false r) = c :: collapseGo false r := by
        simp [lstrip, List.dropWhile_cons, hc']
      have h2 : lstrip (c :: r) = c :: r := by
        simp [lstrip, List.dropWhile_cons, hc']
      rw [h1, h2]
      simp only [collapseGo, hc', Bool.false_eq_true, if_false]

theorem collapseGo_rstrip (l : List Char) : ∀ b : Bool,
    collapseGo b (rstrip l) = rstrip (collapseGo b l) := by
  induction l with
  | nil => intro b; rfl
  | cons c r ih =>
    intro b
    by_cases hc : pySpace c = true
    · by_cases hr : rstrip r = []
      · have hall : ∀ x ∈ r, pySpace x = true := (rstrip_eq_nil_iff r).mp hr
        have hgo : collapseGo true r = [] := collapseGo_all_ws r hall
        rw [rstrip_cons, if_pos ⟨hc, hr⟩]
        show ([] : List Char) = rstrip (collapseGo b (c :: r))
        simp only [collapseGo, hc, if_true]
        by_cases hb : b
        · subst hb
          rw [if_pos rfl, hgo]
          rfl
        · have hb' : b = false := by simpa using hb
          subst hb'
          rw [if_neg (by simp), hgo]
          rfl
      · have hne : rstrip (collapseGo true r) ≠ [] := by
          intro hnil
          have hex : ∃ x ∈ r, pySpace x = false := by
            by_contra hno
            push_neg at hno
            apply hr
            apply (rstrip_eq_nil_iff r).mpr
            intro x hx
            have := hno x hx
            simpa using this
          obtain ⟨e, he, hew⟩ := collapseGo_exists_nonws r hex true
          have het := (rstrip_eq_nil_iff _).mp hnil e he
          rw [hew] at het
          exact absurd het (by simp)
        have hrc : rstrip (c :: r) = c :: rstrip r := by
          rw [rstrip_cons, if_neg (by rintro ⟨-, h2⟩; exact hr h2)]
        rw [hrc]
        simp only [collapseGo, hc, if_true]
        by_cases hb : b
        · subst hb
          rw [if_pos rfl, if_pos rfl]
          exact ih true
        · have hb' : b = false := by simpa using hb
          subst hb'
          rw [if_neg (by simp), if_neg (by simp)]
          rw [rstrip_cons, if_neg (by rintro ⟨-, h2⟩; exact hne h2)]
          rw [ih true]
    · have hc' : pySpace c = false := by simpa using hc
      have hrc : rstrip (c :: r) = c :: rstrip r := by
        rw [rstrip_cons, if_neg (by rintro ⟨h1, -⟩; exact hc h1)]
      rw [hrc]
      simp only [collapseGo, hc', Bool.false_eq_true, if_false]
      rw [rstrip_cons, if_neg (by rintro ⟨h1, -⟩; exact hc h1)]
      rw [ih false]

theorem sub1Go_ws_step (p : List Char) (c : Char) (r : List Char) (hc : pySpace c = true) :
    sub1Go p (c :: r) = sub1Go (p ++ [c]) r := by
  simp [sub1Go, hc]

theorem sub1Go_pct_step (p : List Char) (r : List Char) :
    sub1Go p ('%' :: r) = '%' :: sub1Go [] r := by
  simp [sub1Go, pySpace_pct]

theorem sub1Go_other_step (p : List Char) (c : Char) (r : List Char)
    (hc : pySpace c = false) (hpc : ¬ c = '%') :
    sub1Go p (c :: r) = p ++ c :: sub1Go [] r := by
  simp [sub1Go, hc, hpc]

theorem sub1Go_exists_nonws (l : List Char) : ∀ p : List Char,
    (∃ c ∈ l, pySpace c = false) → ∃ c ∈ sub1Go p l, pySpace c = false := by
  induction l with
  | nil => intro p h; simp at h
  | cons c r ih =>
    intro p h
    by_cases hc : pySpace c = true
    · have hr : ∃ d ∈ r, pySpace d = false := by
        obtain ⟨d, hd, hdw⟩ := h
        rcases List.mem_cons.mp hd with rfl | hd'
        · rw [hc] at hdw
          exact absurd hdw (by simp)
        · exact ⟨d, hd', hdw⟩
      rw [sub1Go_ws_step p c r hc]
      exact ih (p ++ [c]) hr
    · have hc' : pySpace c = false := by simpa using hc
      by_cases hpc : c = '%'
      · subst hpc
        rw [sub1Go_pct_step]
        exact ⟨'%', List.mem_cons_self _ _, by decide⟩
      · rw [sub1Go_other_step p c r hc' hpc]
        exact ⟨c, List.mem_append.mpr (.inr (List.mem_cons_self _ _)), hc'⟩

theorem lstrip_sub1Go (l : List Char) : ∀ p : List Char,
    (∀ c ∈ p, pySpace c = true) → lstrip (sub1Go p l) = sub1Go [] (lstrip l) := by
  induction l with
  | nil =>
    intro p hp
    show List.dropWhile pySpace p = sub1Go [] (lstrip [])
    rw [List.dropWhile_eq_nil_iff.mpr (fun c hc => hp c hc)]
    rfl
  | cons c r ih =>
    intro p hp
    by_cases hc : pySpace c = true
    · rw [sub1Go_ws_step p c r hc, ih (p ++ [c]) ?hall]
      case hall =>
        intro x hx
        rcases List.mem_append.mp hx with hx' | hx'
        · exact hp x hx'
        · rcases List.mem_cons.mp hx' with rfl | hx''
          · exact hc
          · simp at hx''
      have h2 : lstrip (c :: r) = lstrip r := by
        simp [lstrip, List.dropWhile_cons, hc]
      rw [h2]
    · have hc' : pySpace c = false := by simpa using hc
      by_cases hpc : c = '%'
      · subst hpc
        rw [sub1Go_pct_step]
        have h1 : lstrip ('%' :: sub1Go [] r) = '%' :: sub1Go [] r := by
          simp [lstrip, List.dropWhile_cons, pySpace_pct]
        have h2 : lstrip ('%' :: r) = '%' :: r := by
          simp [lstrip, List.dropWhile_cons, pySpace_pct]
        rw [h1, h2, sub1Go_pct_step]
      · rw [sub1Go_other_step p c r hc' hpc]
        have h1 : lstrip (p ++ c :: sub1Go [] r) = lstrip (c :: sub1Go [] r) := by
          exact List.dropWhile_append_of_pos (fun x hx => hp x hx)
        have h2 : lstrip (c :: sub1Go [] r) = c :: sub1Go [] r := by
          simp [lstrip, List.dropWhile_cons, hc']
        have h3 : lstrip (c :: r) = c :: r := by
          simp [lstrip, List.dropWhile_cons, hc']
        rw [h1, h2, h3, sub1Go_other_step [] c r hc' hpc, List.nil_append]

theorem rstrip_sub1Go (l : List Char) : ∀ p : List Char,
    (∀ c ∈ p, pySpace c = true) →
    rstrip (sub1Go p l) = if rstrip l = [] then [] else sub1Go p (rstrip l) := by
  induction l with
  | nil =>
    intro p hp
    show rstrip p = if rstrip [] = [] then [] else _
    rw [(rstrip_eq_nil_iff p).mpr hp, if_pos rstrip_nil]
  | cons c r ih =>
    intro p hp
    by_cases hc : pySpace c = true
    · have hall : ∀ x ∈ p ++ [c], pySpace x = true := by
        intro x hx
        rcases List.mem_append.mp hx with hx' | hx'
        · exact hp x hx'
        · rcases List.mem_cons.mp hx' with rfl | hx''
          · exact hc
          · simp at hx''
      by_cases hr : rstrip r = []
      · have h1 : rstrip (c :: r) = [] := by
          rw [rstrip_cons, if_pos ⟨hc, hr⟩]
        rw [sub1Go_ws_step p c r hc, ih (p ++ [c]) hall, if_pos hr, h1, if_pos rfl]
      · have h1 : rstrip (c :: r) = c :: rstrip r := by
          rw [rstrip_cons, if_neg (by rintro ⟨-, h2⟩; exact hr h2)]
        rw [sub1Go_ws_step p c r hc, ih (p ++ [c]) hall, if_neg hr, h1,
          if_neg (List.cons_ne_nil c (rstrip r)), sub1Go_ws_step p c (rstrip r) hc]
    · have hc' : pySpace c = false := by simpa using hc
      by_cases hpc : c = '%'
      · subst hpc
        have h1 : rstrip ('%' :: r) = '%' :: rstrip r := by
          rw [rstrip_cons, if_neg (by rintro ⟨hws, -⟩; exact absurd hws (by decide))]
        have h2 : rstrip ('%' :: sub1Go [] r) = '%' :: rstrip (sub1Go [] r) := by
          rw [rstrip_cons, if_neg (by rintro ⟨hws, -⟩; exact absurd hws (by decide))]
        rw [sub1Go_pct_step p r, h2, ih [] (by simp), h1,
          if_neg (List.cons_ne_nil '%' (rstrip r)), sub1Go_pct_step p (rstrip r)]
        by_cases hr : rstrip r = []
        · rw [if_pos hr, hr]
          rfl
        · rw [if_neg hr]
      · have h1 : rstrip (c :: r) = c :: rstrip r := by
          rw [rstrip_cons, if_neg (by rintro ⟨hws, -⟩; exact hc hws)]
        have h2 : rstrip (c :: sub1Go [] r) = c :: rstrip (sub1Go [] r) := by
          rw [rstrip_cons, if_neg (by rintro ⟨hws, -⟩; exact hc hws)]
        rw [sub1Go_other_step p c r hc' hpc, rstrip_append p (c :: sub1Go [] r), h2,
          if_neg (List.cons_ne_nil c (rstrip (sub1Go [] r))), ih [] (by simp), h1,
          if_neg (List.cons_ne_nil c (rstrip r)),
          sub1Go_other_step p c (rstrip r) hc' hpc]
        by_cases hr : rstrip r = []
        · rw [if_pos hr, hr]
          rfl
        · rw [if_neg hr]

theorem rstrip_sub1 (l : List Char) :
    rstrip (sub1Go [] l) = sub1Go [] (rstrip l) := by
  by_cases hr : rstrip l = []
  · rw [rstrip_sub1Go l [] (by simp), if_pos hr, hr]
    rfl
  · rw [rstrip_sub1Go l [] (by simp), if_neg hr]

theorem sub2Go_skip_step (r : List Char) (c : Char) (hc : pySpace c = true) :
    sub2Go true (c :: r) = sub2Go true r := by
  simp [sub2Go, hc]

theorem sub2Go_pct_step (b : Bool) (r : List Char) :
    sub2Go b ('%' :: r) = '%' :: sub2Go true r := by
  simp [sub2Go, pySpace_pct]

theorem sub2Go_other_step (b : Bool) (c : Char) (r : List Char)
    (h : ¬ (b = true ∧ pySpace c = true)) (hpc : ¬ c = '%') :
    sub2Go b (c :: r) = c :: sub2Go false r := by
  simp only [sub2Go]
  rw [if_neg h, if_neg hpc]

theorem sub2Go_exists_nonws (l : List Char) : ∀ b : Bool,
    (∃ c ∈ l, pySpace c = false) → ∃ c ∈ sub2Go b l, pySpace c = false := by
  induction l with
  | nil => intro b h; simp at h
  | cons c r ih =>
    intro b h
    by_cases hbc : b = true ∧ pySpace c = true
    · obtain ⟨hb, hcw⟩ := hbc
      subst hb
      rw [sub2Go_skip_step r c hcw]
      apply ih true
      obtain ⟨d, hd, hdw⟩ := h
      rcases List.mem_cons.mp hd with rfl | hd'
      · rw [hcw] at hdw
        exact absurd hdw (by simp)
      · exact ⟨d, hd', hdw⟩
    · by_cases hpc : c = '%'
      · subst hpc
        rw [sub2Go_pct_step]
        exact ⟨'%', List.mem_cons_self _ _, by decide⟩
      · rw [sub2Go_other_step b c r hbc hpc]
        by_cases hcw : pySpace c = false
        · exact ⟨c, List.mem_cons_self _ _, hcw⟩
        · have hcw' : pySpace c = true := by simpa using hcw
          have hr : ∃ d ∈ r, pySpace d = false := by
            obtain ⟨d, hd, hdw⟩ := h
            rcases List.mem_cons.mp hd with rfl | hd'
            · rw [hcw'] at hdw
              exact absurd hdw (by simp)
            · exact ⟨d, hd', hdw⟩
          obtain ⟨e, he, hew⟩ := ih false hr
          exact ⟨e, List.mem_cons_of_mem c he, hew⟩

theorem lstrip_sub2Go (l : List Char) : ∀ b : Bool,
    lstrip (sub2Go b l) = sub2Go false (lstrip l) := by
  induction l with
  | nil => intro b; rfl
  | cons c r ih =>
    intro b
    by_cases hc : pySpace c = true
    · have h2 : lstrip (c :: r) = lstrip r := by
        simp [lstrip, List.dropWhile_cons, hc]
      by_cases hb : b = true
      · subst hb
        rw [sub2Go_skip_step r c hc, ih true, h2]
      · have hb' : b = false := by simpa using hb
        subst hb'
        rw [sub2Go_other_step false c r (by simp) (ws_ne_pct hc)]
        have h1 : lstrip (c :: sub2Go false r) = lstrip (sub2Go false r) := by
          simp [lstrip, List.dropWhile_cons, hc]
        rw [h1, h2, ih false]
    · have hc' : pySpace c = false := by simpa using hc
      by_cases hpc : c = '%'
      · subst hpc
        rw [sub2Go_pct_step b r]
        have h1 : lstrip ('%' :: sub2Go true r) = '%' :: sub2Go true r := by
          simp [lstrip, List.dropWhile_cons, pySpace_pct]
        have h2 : lstrip ('%' :: r) = '%' :: r := by
          simp [lstrip, List.dropWhile_cons, pySpace_pct]
        rw [h1, h2, sub2Go_pct_step false r]
      · rw [sub2Go_other_step b c r (by rintro ⟨-, hws⟩; exact hc hws) hpc]
        have h1 : lstrip (c :: sub2Go false r) = c :: sub2Go false r := by
          simp [lstrip, List.dropWhile_cons, hc']
        have h2 : lstrip (c :: r) = c :: r := by
          simp [lstrip, List.dropWhile_cons, hc']
        rw [h1, h2, sub2Go_other_step false c r (by simp [hc]) hpc]

theorem rstrip_sub2Go (l : List Char) : ∀ b : Bool,
    rstrip (sub2Go b l) = if rstrip l = [] then [] else sub2Go b (rstrip l) := by
  induction l with
  | nil =>
    intro b
    rw [rstrip_nil, if_pos rfl]
    rfl
  | cons c r ih =>
    intro b
    by_cases hc : pySpace c = true
    · by_cases hb : b = true
      · subst hb
        rw [sub2Go_skip_step r c hc, ih true]
        by_cases hr : rstrip r = []
        · have h1 : rstrip (c :: r) = [] := by
            rw [rstrip_cons, if_pos ⟨hc, hr⟩]
          rw [if_pos hr, h1, if_pos rfl]
        · have h1 : rstrip (c :: r) = c :: rstrip r := by
            rw [rstrip_cons, if_neg (by rintro ⟨-, h2⟩; exact hr h2)]
          rw [if_neg hr, h1, if_neg (List.cons_ne_nil c (rstrip r)),
            sub2Go_skip_step (rstrip r) c hc]
      · have hb' : b = false := by simpa using hb
        subst hb'
        rw [sub2Go_other_step false c r (by simp) (ws_ne_pct hc)]
        by_cases hr : rstrip r = []
        · have hnil : rstrip (sub2Go false r) = [] := by
            rw [ih false, if_pos hr]
          have h2 : rstrip (c :: sub2Go false r) = [] := by
            rw [rstrip_cons, if_pos ⟨hc, hnil⟩]
          have h1 : rstrip (c :: r) = [] := by
            rw [rstrip_cons, if_pos ⟨hc, hr⟩]
          rw [h2, h1, if_pos rfl]
        · have hne : rstrip (sub2Go false r) ≠ [] := by
            intro hnil
            have hex : ∃ x ∈ r, pySpace x = false := by
              by_contra hno
              push_neg at hno
              apply hr
              apply (rstrip_eq_nil_iff r).mpr
              intro x hx
              simpa using hno x hx
            obtain ⟨e, he, hew⟩ := sub2Go_exists_nonws r false hex
            have het := (rstrip_eq_nil_iff _).mp hnil e he
            rw [hew] at het
            exact absurd het (by simp)
          have h2 : rstrip (c :: sub2Go false r) = c :: rstrip (sub2Go false r) := by
            rw [rstrip_cons, if_neg (by rintro ⟨-, h2⟩; exact hne h2)]
          have h1 : rstrip (c :: r) = c :: rstrip r := by
            rw [rstrip_cons, if_neg (by rintro ⟨-, h2⟩; exact hr h2)]
          rw [h2, ih false, if_neg hr, h1, if_neg (List.cons_ne_nil c (rstrip r)),
            sub2Go_other_step false c (rstrip r) (by simp) (ws_ne_pct hc)]
    · have hc' : pySpace c = false := by simpa using hc
      by_cases hpc : c = '%'
      · subst hpc
        rw [sub2Go_pct_step b r]
        have h2 : rstrip ('%' :: sub2Go true r) = '%' :: rstrip (sub2Go true r) := by
          rw [rstrip_cons, if_neg (by rintro ⟨hws, -⟩; exact absurd hws (by decide))]
        have h1 : rstrip ('%' :: r) = '%' :: rstrip r := by
          rw [rstrip_cons, if_neg (by rintro ⟨hws, -⟩; exact absurd hws (by decide))]
        rw [h2, ih true, h1, if_neg (List.cons_ne_nil '%' (rstrip r)),
          sub2Go_pct_step b (rstrip r)]
        by_cases hr : rstrip r = []
        · rw [if_pos hr, hr]
          rfl
        · rw [if_neg hr]
      · rw [sub2Go_other_step b c r (by rintro ⟨-, hws⟩; exact hc hws) hpc]
        have h2 : rstrip (c :: sub2Go false r) = c :: rstrip (sub2Go false r) := by
          rw [rstrip_cons, if_neg (by rintro ⟨hws, -⟩; exact hc hws)]
        have h1 : rstrip (c :: r) = c :: rstrip r := by
          rw [rstrip_cons, if_neg (by rintro ⟨hws, -⟩; exact hc hws)]
        rw [h2, ih false, h1, if_neg (List.cons_ne_nil c (rstrip r)),
          sub2Go_other_step b c (rstrip r) (by rintro ⟨-, hws⟩; exact hc hws) hpc]
        by_cases hr : rstrip r = []
        · rw [if_pos hr, hr]
          rfl
        · rw [if_neg hr]

theorem rstrip_sub2 (l : List Char) :
    rstrip (sub2Go false l) = sub2Go false (rstrip l) := by
  by_cases hr : rstrip l = []
  · rw [rstrip_sub2Go l false, if_pos hr, hr]
    rfl
  · rw [rstrip_sub2Go l false, if_neg hr]

theorem normalize_some_eq (s : String) :
    normalize_header (some s) =
      String.mk (rstrip (lstrip (sub2Go false
        (sub1Go [] (collapseGo false (lowerStr s.data)))))) := by
  show String.mk (subPctWs (subWsPct (collapseWs (pyStrip (lowerStr s.data))))) = _
  congr 1
  show sub2Go false (sub1Go [] (collapseGo false (rstrip (lstrip (lowerStr s.data))))) =
    rstrip (lstrip (sub2Go false (sub1Go [] (collapseGo false (lowerStr s.data)))))
  generalize lowerStr s.data = L
  calc sub2Go false (sub1Go [] (collapseGo false (rstrip (lstrip L))))
      = sub2Go false (sub1Go [] (rstrip (collapseGo false (lstrip L)))) := by
        rw [collapseGo_rstrip (lstrip L) false]
    _ = sub2Go false (sub1Go [] (rstrip (lstrip (collapseGo false L)))) := by
        rw [← lstrip_collapseGo L false]
    _ = sub2Go false (rstrip (sub1Go [] (lstrip (collapseGo false L)))) := by
        rw [← rstrip_sub1 (lstrip (collapseGo false L))]
    _ = sub2Go false (rstrip (lstrip (sub1Go [] (collapseGo false L)))) := by
        rw [← lstrip_sub1Go (collapseGo false L) [] (by simp)]
    _ = rstrip (sub2Go false (lstrip (sub1Go [] (collapseGo false L)))) := by
        rw [← rstrip_sub2 (lstrip (sub1Go [] (collapseGo false L)))]
    _ = rstrip (lstrip (sub2Go false (sub1Go [] (collapseGo false L)))) := by
        rw [← lstrip_sub2Go (sub1Go [] (collapseGo false L)) false]

/-- C5: `normalize_header` is total over `None`/strings, `None`
normalizes to the empty string, and for every string the source
pipeline (lower, strip, collapse, remove whitespace around `%`) yields
exactly the result described by the spec order (lower, collapse, remove
whitespace around `%`, trim last). -/
theorem C5_normalize_total_and_spec_order :
    normalize_header none = "" ∧
    ∀ s : String, normalize_header (some s) = normalizeSpec s :=
  ⟨rfl, fun s => normalize_some_eq s⟩

/-! ## Claim C6: idempotence infrastructure -/

theorem okPair_tail {f : Char → Char → Bool} {a : Char} {l : List Char}
    (h : okPair f (a :: l) = true) : okPair f l = true := by
  cases l with
  | nil => rfl
  | cons b t =>
    simp only [okPair, Bool.and_eq_true] at h
    exact h.2

theorem okPair_head {f : Char → Char → Bool} {a b : Char} {t : List Char}
    (h : okPair f (a :: b :: t) = true) : f a b = false := by
  simp only [okPair, Bool.and_eq_true] at h
  simpa using h.1

theorem okPair_cons {f : Char → Char → Bool} {c : Char} {l : List Char}
    (h1 : ∀ d t, l = d :: t → f c d = false) (h2 : okPair f l = true) :
    okPair f (c :: l) = true := by
  cases l with
  | nil => rfl
  | cons d t =>
    simp only [okPair, Bool.and_eq_true]
    exact ⟨by simp [h1 d t rfl], h2⟩

theorem allWsSpace_cons {c : Char} {l : List Char} :
    allWsSpace (c :: l) = ((!pySpace c || (c == ' ')) && allWsSpace l) := by
  simp [allWsSpace]

theorem allWsSpace_tail {c : Char} {l : List Char}
    (h : allWsSpace (c :: l) = true) : allWsSpace l = true := by
  rw [allWsSpace_cons, Bool.and_eq_true] at h
  exact h.2

theorem allWsSpace_space {c : Char} {l : List Char}
    (h : allWsSpace (c :: l) = true) (hc : pySpace c = true) : c = ' ' := by
  rw [allWsSpace_cons, Bool.and_eq_true] at h
  have := h.1
  rw [hc] at this
  simpa using this

theorem mem_collapseGo (l : List Char) : ∀ (b : Bool) (c : Char),
    c ∈ collapseGo b l → c ∈ l ∨ c = ' ' := by
  induction l with
  | nil => intro b c h; simp [collapseGo] at h
  | cons a r ih =>
    intro b c h
    by_cases ha : pySpace a = true
    · simp only [collapseGo, ha, if_true] at h
      by_cases hb : b = true
      · subst hb
        rw [if_pos rfl] at h
        rcases ih true c h with h' | h'
        · exact .inl (List.mem_cons_of_mem a h')
        · exact .inr h'
      · have hb' : b = false := by simpa using hb
        subst hb'
        rw [if_neg (by simp)] at h
        rcases List.mem_cons.mp h with rfl | h'
        · exact .inr rfl
        · rcases ih true c h' with h'' | h''
          · exact .inl (List.mem_cons_of_mem a h'')
          · exact .inr h''
    · have ha' : pySpace a = false := by simpa using ha
      simp only [collapseGo, ha', Bool.false_eq_true, if_false] at h
      rcases List.mem_cons.mp h with rfl | h'
      · exact .inl (List.mem_cons_self _ _)
      · rcases ih false c h' with h'' | h''
        · exact .inl (List.mem_cons_of_mem a h'')
        · exact .inr h''

theorem mem_sub1Go (l : List Char) : ∀ (p : List Char) (c : Char),
    c ∈ sub1Go p l → c ∈ p ∨ c ∈ l := by
  induction l with
  | nil => intro p c h; exact .inl h
  | cons a r ih =>
    intro p c h
    by_cases ha : pySpace a = true
    · rw [sub1Go_ws_step p a r ha] at h
      rcases ih (p ++ [a]) c h with h' | h'
      · rcases List.mem_append.mp h' with h'' | h''
        · exact .inl h''
        · rcases List.mem_cons.mp h'' with rfl | h3
          · exact .inr (List.mem_cons_self _ _)
          · simp at h3
      · exact .inr (List.mem_cons_of_mem a h')
    · have ha' : pySpace a = false := by simpa using ha
      by_cases hpc : a = '%'
      · subst hpc
        rw [sub1Go_pct_step p r] at h
        rcases List.mem_cons.mp h with rfl | h'
        · exact .inr (List.mem_cons_self _ _)
        · rcases ih [] c h' with h'' | h''
          · simp at h''
          · exact .inr (List.mem_cons_of_mem _ h'')
      · rw [sub1Go_other_step p a r ha' hpc] at h
        rcases List.mem_append.mp h with h' | h'
        · exact .inl h'
        · rcases List.mem_cons.mp h' with rfl | h''
          · exact .inr (List.mem_cons_self _ _)
          · rcases ih [] c h'' with h3 | h3
            · simp at h3
            · exact .inr (List.mem_cons_of_mem a h3)

theorem mem_sub2Go (l : List Char) : ∀ (b : Bool) (c : Char),
    c ∈ sub2Go b l → c ∈ l := by
  induction l with
  | nil => intro b c h; simp [sub2Go] at h
  | cons a r ih =>
    intro b c h
    by_cases hba : b = true ∧ pySpace a = true
    · obtain ⟨hb, ha⟩ := hba
      subst hb
      rw [sub2Go_skip_step r a ha] at h
      exact List.mem_cons_of_mem a (ih true c h)
    · by_cases hpc : a = '%'
      · subst hpc
        rw [sub2Go_pct_step b r] at h
        rcases List.mem_cons.mp h with rfl | h'
        · exact List.mem_cons_self _ _
        · exact List.mem_cons_of_mem _ (ih true c h')
      · rw [sub2Go_other_step b a r hba hpc] at h
        rcases List.mem_cons.mp h with rfl | h'
        · exact List.mem_cons_self _ _
        · exact List.mem_cons_of_mem a (ih false c h')

theorem mem_rstrip (l : List Char) (c : Char) (h : c ∈ rstrip l) : c ∈ l := by
  induction l with
  | nil => simpa [rstrip_nil] using h
  | cons a r ih =>
    rw [rstrip_cons] at h
    by_cases hc : pySpace a = true ∧ rstrip r = []
    · rw [if_pos hc] at h
      simp at h
    · rw [if_neg hc] at h
      rcases List.mem_cons.mp h with rfl | h'
      · exact List.mem_cons_self _ _
      · exact List.mem_cons_of_mem a (ih h')

theorem mem_lstrip (l : List Char) (c : Char) (h : c ∈ lstrip l) : c ∈ l :=
  (List.dropWhile_sublist pySpace).subset h

theorem toNat_ofNat_valid (n : Nat) (h : n.isValidChar) :
    (Char.ofNat n).toNat = n := by
  rw [Char.ofNat, dif_pos h]
  rfl

theorem lowerChar_idem (c : Char) : lowerChar (lowerChar c) = lowerChar c := by
  unfold lowerChar
  by_cases h : 'A' ≤ c ∧ c ≤ 'Z'
  · rw [if_pos h]
    have hge : 65 ≤ c.toNat := by
      have := h.1
      rw [Char.le_def] at this
      exact this
    have hle : c.toNat ≤ 90 := by
      have := h.2
      rw [Char.le_def] at this
      exact this
    have hvalid : (c.toNat + 32).isValidChar := Or.inl (by omega)
    have htn : (Char.ofNat (c.toNat + 32)).toNat = c.toNat + 32 :=
      toNat_ofNat_valid _ hvalid
    rw [if_neg ?hno]
    case hno =>
      rintro ⟨-, h2⟩
      rw [Char.le_def] at h2
      have h2n : (Char.ofNat (c.toNat + 32)).toNat ≤ 90 := h2
      rw [htn] at h2n
      omega
  · rw [if_neg h, if_neg h]

theorem collapseGo_allWsSpace (l : List Char) : ∀ b : Bool,
    allWsSpace (collapseGo b l) = true := by
  induction l with
  | nil => intro b; rfl
  | cons c r ih =>
    intro b
    by_cases hc : pySpace c = true
    · simp only [collapseGo, hc, if_true]
      by_cases hb : b = true
      · subst hb
        rw [if_pos rfl]
        exact ih true
      · have hb' : b = false := by simpa using hb
        subst hb'
        rw [if_neg (by simp), allWsSpace_cons]
        simp only [Bool.and_eq_true]
        exact ⟨by decide, ih true⟩
    · have hc' : pySpace c = false := by simpa using hc
      simp only [collapseGo, hc', Bool.false_eq_true, if_false]
      rw [allWsSpace_cons]
      simp only [Bool.and_eq_true]
      exact ⟨by simp [hc'], ih false⟩

theorem collapseGo_true_head (l : List Char) : ∀ d t,
    collapseGo true l = d :: t → pySpace d = false := by
  induction l with
  | nil => intro d t h; simp [collapseGo] at h
  | cons c r ih =>
    intro d t h
    by_cases hc : pySpace c = true
    · simp only [collapseGo, hc, if_true, if_pos rfl] at h
      exact ih d t h
    · have hc' : pySpace c = false := by simpa using hc
      simp only [collapseGo, hc', Bool.false_eq_true, if_false] at h
      rw [← (List.cons_eq_cons.mp h).1]
      exact hc'

theorem collapseGo_okPair_ww (l : List Char) : ∀ b : Bool,
    okPair wwPair (collapseGo b l) = true := by
  induction l with
  | nil => intro b; rfl
  | cons c r ih =>
    intro b
    by_cases hc : pySpace c = true
    · simp only [collapseGo, hc, if_true]
      by_cases hb : b = true
      · subst hb
        rw [if_pos rfl]
        exact ih true
      · have hb' : b = false := by simpa using hb
        subst hb'
        rw [if_neg (by simp)]
        apply okPair_cons
        · intro d t hdt
          have hd := collapseGo_true_head r d t hdt
          simp [wwPair, hd]
        · exact ih true
    · have hc' : pySpace c = false := by simpa using hc
      simp only [collapseGo, hc', Bool.false_eq_true, if_false]
      apply okPair_cons
      · intro d t _
        simp [wwPair, hc']
      · exact ih false

theorem collapse_id (l : List Char) : allWsSpace l = true → okPair wwPair l = true →
    collapseGo false l = l := by
  induction l with
  | nil => intro _ _; rfl
  | cons c r ih =>
    intro hall hww
    by_cases hc : pySpace c = true
    · have hcsp : c = ' ' := allWsSpace_space hall hc
      simp only [collapseGo, hc, if_true, if_neg (by simp : ¬ false = true)]
      cases r with
      | nil =>
        rw [hcsp]
        rfl
      | cons d t =>
        have hd : pySpace d = false := by
          have := okPair_head hww
          simp only [wwPair, hc, Bool.true_and] at this
          exact this
        have hr : collapseGo false (d :: t) = d :: t :=
          ih (allWsSpace_tail hall) (okPair_tail hww)
        have hstep : collapseGo false (d :: t) = d :: collapseGo false t := by
          simp only [collapseGo, hd, Bool.false_eq_true, if_false]
        have ht : collapseGo false t = t := by
          rw [hstep] at hr
          exact (List.cons_eq_cons.mp hr).2
        have htrue : collapseGo true (d :: t) = d :: collapseGo false t := by
          simp only [collapseGo, hd, Bool.false_eq_true, if_false]
        rw [htrue, ht, hcsp]
    · have hc' : pySpace c = false := by simpa using hc
      simp only [collapseGo, hc', Bool.false_eq_true, if_false]
      rw [ih (allWsSpace_tail hall) (okPair_tail hww)]

theorem sub1_out (l : List Char) : allWsSpace l = true → okPair wwPair l = true →
    allWsSpace (sub1Go [] l) = true ∧ okPair wwPair (sub1Go [] l) = true ∧
    okPair wpPair (sub1Go [] l) = true := by
  induction l with
  | nil => intro _ _; exact ⟨rfl, rfl, rfl⟩
  | cons c r ih =>
    intro hall hww
    have ihr := ih (allWsSpace_tail hall) (okPair_tail hww)
    by_cases hc : pySpace c = true
    · have hcsp : c = ' ' := allWsSpace_space hall hc
      cases r with
      | nil =>
        have hstep : sub1Go [] [c] = [c] := by
          rw [sub1Go_ws_step [] c [] hc]
          rfl
        rw [hstep]
        refine ⟨?_, rfl, rfl⟩
        rw [hcsp]
        decide
      | cons d t =>
        have hd : pySpace d = false := by
          have := okPair_head hww
          simp only [wwPair, hc, Bool.true_and] at this
          exact this
        rw [sub1Go_ws_step [] c (d :: t) hc, List.nil_append]
        by_cases hdp : d = '%'
        · subst hdp
          rw [sub1Go_pct_step [c] t, ← sub1Go_pct_step [] t]
          exact ihr
        · rw [sub1Go_other_step [c] d t hd hdp]
          have hrew : sub1Go [] (d :: t) = d :: sub1Go [] t := by
            rw [sub1Go_other_step [] d t hd hdp]
            rfl
          rw [hrew] at ihr
          obtain ⟨ia, iw, ip⟩ := ihr
          have hshape : [c] ++ d :: sub1Go [] t = c :: d :: sub1Go [] t := rfl
          rw [hshape]
          refine ⟨?_, ?_, ?_⟩
          · rw [allWsSpace_cons]
            simp only [Bool.and_eq_true]
            exact ⟨by rw [hcsp]; decide, ia⟩
          · apply okPair_cons _ iw
            intro e t' het
            have he : d = e := (List.cons_eq_cons.mp het).1
            rw [← he]
            simp [wwPair, hd]
          · apply okPair_cons _ ip
            intro e t' het
            have he : d = e := (List.cons_eq_cons.mp het).1
            rw [← he]
            simp [wpPair, hdp]
    · have hc' : pySpace c = false := by simpa using hc
      obtain ⟨ia, iw, ip⟩ := ihr
      by_cases hpc : c = '%'
      · subst hpc
        rw [sub1Go_pct_step [] r]
        refine ⟨?_, okPair_cons (fun d t _ => by simp [wwPair, pySpace_pct]) iw,
          okPair_cons (fun d t _ => by simp [wpPair, pySpace_pct]) ip⟩
        rw [allWsSpace_cons]
        simp only [Bool.and_eq_true]
        exact ⟨by decide, ia⟩
      · have hstep : sub1Go [] (c :: r) = c :: sub1Go [] r := by
          rw [sub1Go_other_step [] c r hc' hpc]
          rfl
        rw [hstep]
        refine ⟨?_, okPair_cons (fun d t _ => by simp [wwPair, hc']) iw,
          okPair_cons (fun d t _ => by simp [wpPair, hc']) ip⟩
        rw [allWsSpace_cons]
        simp only [Bool.and_eq_true]
        exact ⟨by simp [hc'], ia⟩

theorem sub1_id (l : List Char) : okPair wwPair l = true → okPair wpPair l = true →
    sub1Go [] l = l := by
  induction l with
  | nil => intro _ _; rfl
  | cons c r ih =>
    intro hww hwp
    have ihr := ih (okPair_tail hww) (okPair_tail hwp)
    by_cases hc : pySpace c = true
    · cases r with
      | nil =>
        rw [sub1Go_ws_step [] c [] hc]
        rfl
      | cons d t =>
        have hd : pySpace d = false := by
          have := okPair_head hww
          simp only [wwPair, hc, Bool.true_and] at this
          exact this
        have hdp : ¬ d = '%' := by
          have := okPair_head hwp
          simp only [wpPair, hc, Bool.true_and] at this
          simpa using this
        rw [sub1Go_ws_step [] c (d :: t) hc, List.nil_append,
          sub1Go_other_step [c] d t hd hdp]
        have hstep : sub1Go [] (d :: t) = d :: sub1Go [] t := by
          rw [sub1Go_other_step [] d t hd hdp]
          rfl
        rw [hstep] at ihr
        have ht : sub1Go [] t = t := (List.cons_eq_cons.mp ihr).2
        rw [ht]
        rfl
    · have hc' : pySpace c = false := by simpa using hc
      by_cases hpc : c = '%'
      · subst hpc
        rw [sub1Go_pct_step [] r, ihr]
      · rw [sub1Go_other_step [] c r hc' hpc, ihr]
        rfl

theorem sub2Go_true_head (l : List Char) : ∀ d t,
    sub2Go true l = d :: t → pySpace d = false := by
  induction l with
  | nil => intro d t h; simp [sub2Go] at h
  | cons c r ih =>
    intro d t h
    by_cases hc : pySpace c = true
    · rw [sub2Go_skip_step r c hc] at h
      exact ih d t h
    · have hc' : pySpace c = false := by simpa using hc
      by_cases hpc : c = '%'
      · subst hpc
        rw [sub2Go_pct_step true r] at h
        rw [← (List.cons_eq_cons.mp h).1]
        exact pySpace_pct
      · rw [sub2Go_other_step true c r (by simp [hc']) hpc] at h
        rw [← (List.cons_eq_cons.mp h).1]
        exact hc'

theorem sub2Go_false_head (l : List Char) : ∀ d t,
    sub2Go false l = d :: t → ∃ t0, l = d :: t0 := by
  cases l with
  | nil => intro d t h; simp [sub2Go] at h
  | cons c r =>
    intro d t h
    by_cases hpc : c = '%'
    · subst hpc
      rw [sub2Go_pct_step false r] at h
      exact ⟨r, by rw [(List.cons_eq_cons.mp h).1]⟩
    · rw [sub2Go_other_step false c r (by simp) hpc] at h
      exact ⟨r, by rw [(List.cons_eq_cons.mp h).1]⟩

theorem sub2_out (l : List Char) : allWsSpace l = true → okPair wwPair l = true →
    okPair wpPair l = true → ∀ b : Bool,
    allWsSpace (sub2Go b l) = true ∧ okPair wwPair (sub2Go b l) = true ∧
    okPair wpPair (sub2Go b l) = true ∧ okPair pwPair (sub2Go b l) = true := by
  induction l with
  | nil => intro _ _ _ b; exact ⟨rfl, rfl, rfl, rfl⟩
  | cons c r ih =>
    intro hall hww hwp b
    have ihr := ih (allWsSpace_tail hall) (okPair_tail hww) (okPair_tail hwp)
    by_cases hbc : b = true ∧ pySpace c = true
    · obtain ⟨hb, hcw⟩ := hbc
      subst hb
      rw [sub2Go_skip_step r c hcw]
      exact ihr true
    · by_cases hpc : c = '%'
      · subst hpc
        rw [sub2Go_pct_step b r]
        obtain ⟨a1, w1, p1, q1⟩ := ihr true
        refine ⟨?_, ?_, ?_, ?_⟩
        · rw [allWsSpace_cons]
          simp only [Bool.and_eq_true]
          exact ⟨by decide, a1⟩
        · exact okPair_cons (fun d t _ => by simp [wwPair, pySpace_pct]) w1
        · exact okPair_cons (fun d t _ => by simp [wpPair, pySpace_pct]) p1
        · apply okPair_cons _ q1
          intro d t hdt
          have hd := sub2Go_true_head r d t hdt
          simp [pwPair, hd]
      · rw [sub2Go_other_step b c r hbc hpc]
        obtain ⟨a1, w1, p1, q1⟩ := ihr false
        refine ⟨?_, ?_, ?_, ?_⟩
        · rw [allWsSpace_cons]
          simp only [Bool.and_eq_true]
          refine ⟨?_, a1⟩
          have hh := hall
          rw [allWsSpace_cons, Bool.and_eq_true] at hh
          exact hh.1
        · apply okPair_cons _ w1
          intro d t hdt
          obtain ⟨t0, ht0⟩ := sub2Go_false_head r d t hdt
          rw [ht0] at hww
          exact okPair_head hww
        · apply okPair_cons _ p1
          intro d t hdt
          obtain ⟨t0, ht0⟩ := sub2Go_false_head r d t hdt
          rw [ht0] at hwp
          exact okPair_head hwp
        · apply okPair_cons _ q1
          intro d t _
          simp [pwPair, hpc]

theorem sub2_id_aux (l : List Char) : okPair pwPair l = true → ∀ b : Bool,
    (b = true → ∀ d t, l = d :: t → pySpace d = false) → sub2Go b l = l := by
  induction l with
  | nil => intro _ b _; rfl
  | cons c r ih =>
    intro hq b hb
    by_cases hbc : b = true ∧ pySpace c = true
    · exact absurd (hb hbc.1 c r rfl) (by simp [hbc.2])
    · by_cases hpc : c = '%'
      · subst hpc
        rw [sub2Go_pct_step b r]
        have hr : sub2Go true r = r := by
          apply ih (okPair_tail hq) true
          intro _ d t hdt
          rw [hdt] at hq
          have hhd := okPair_head hq
          simpa [pwPair] using hhd
        rw [hr]
      · rw [sub2Go_other_step b c r hbc hpc,
          ih (okPair_tail hq) false (by simp)]

theorem sub2_id (l : List Char) (h : okPair pwPair l = true) :
    sub2Go false l = l :=
  sub2_id_aux l h false (by simp)

theorem lstrip_step (c : Char) (r : List Char) :
    lstrip (c :: r) = if pySpace c then lstrip r else c :: r := by
  simp [lstrip, List.dropWhile_cons]

theorem lstrip_head (l : List Char) : ∀ d t,
    lstrip l = d :: t → pySpace d = false := by
  induction l with
  | nil => intro d t h; simp [lstrip] at h
  | cons c r ih =>
    intro d t h
    rw [lstrip_step] at h
    by_cases hc : pySpace c = true
    · rw [if_pos hc] at h
      exact ih d t h
    · rw [if_neg hc] at h
      rw [← (List.cons_eq_cons.mp h).1]
      simpa using hc

theorem lstrip_fixed (l : List Char)
    (h : ∀ d t, l = d :: t → pySpace d = false) : lstrip l = l := by
  cases l with
  | nil => rfl
  | cons c r =>
    have hc := h c r rfl
    rw [lstrip_step, if_neg (by simp [hc])]

theorem rstrip_head (l : List Char) : ∀ d t,
    rstrip l = d :: t → ∃ t0, l = d :: t0 := by
  cases l with
  | nil => intro d t h; simp [rstrip_nil] at h
  | cons c r =>
    intro d t h
    rw [rstrip_cons] at h
    by_cases hc : pySpace c ∧ rstrip r = []
    · rw [if_pos hc] at h
      simp at h
    · rw [if_neg hc] at h
      exact ⟨r, by rw [(List.cons_eq_cons.mp h).1]⟩

theorem rstrip_idem (l : List Char) : rstrip (rstrip l) = rstrip l := by
  induction l with
  | nil => rfl
  | cons c r ih =>
    rw [rstrip_cons]
    by_cases hc : pySpace c ∧ rstrip r = []
    · rw [if_pos hc]
      rfl
    · rw [if_neg hc, rstrip_cons, ih, if_neg hc]

theorem okPair_lstrip (f : Char → Char → Bool) (l : List Char)
    (h : okPair f l = true) : okPair f (lstrip l) = true := by
  induction l with
  | nil => exact h
  | cons c r ih =>
    rw [lstrip_step]
    by_cases hc : pySpace c = true
    · rw [if_pos hc]
      exact ih (okPair_tail h)
    · rw [if_neg hc]
      exact h

theorem okPair_rstrip (f : Char → Char → Bool) (l : List Char)
    (h : okPair f l = true) : okPair f (rstrip l) = true := by
  induction l with
  | nil => exact h
  | cons c r ih =>
    rw [rstrip_cons]
    by_cases hc : pySpace c ∧ rstrip r = []
    · rw [if_pos hc]
      rfl
    · rw [if_neg hc]
      apply okPair_cons _ (ih (okPair_tail h))
      intro d t hdt
      obtain ⟨t0, ht0⟩ := rstrip_head r d t hdt
      rw [ht0] at h
      exact okPair_head h

theorem allWs_sub (l m : List Char) (hsub : ∀ c ∈ m, c ∈ l)
    (h : allWsSpace l = true) : allWsSpace m = true := by
  unfold allWsSpace at h ⊢
  rw [List.all_eq_true] at h ⊢
  intro c hc
  exact h c (hsub c hc)

theorem lowerStr_fixed (l : List Char) (h : ∀ c ∈ l, lowerChar c = c) :
    lowerStr l = l := by
  unfold lowerStr
  simpa using List.map_congr_left h

theorem normalize_fixed (N : List Char)
    (hlow : ∀ c ∈ N, lowerChar c = c)
    (ha : allWsSpace N = true) (hw : okPair wwPair N = true)
    (hp : okPair wpPair N = true) (hq : okPair pwPair N = true)
    (hl : lstrip N = N) (hr : rstrip N = N) :
    normalize_header (some (String.mk N)) = String.mk N := by
  rw [normalize_some_eq (String.mk N)]
  congr 1
  show rstrip (lstrip (sub2Go false (sub1Go [] (collapseGo false (lowerStr N))))) = N
  rw [lowerStr_fixed N hlow, collapse_id N ha hw, sub1_id N hw hp,
    sub2_id N hq, hl, hr]

theorem normalize_idem_some (s : String) :
    normalize_header (some (normalize_header (some s))) =
      normalize_header (some s) := by
  rw [normalize_some_eq s]
  have a1 := collapseGo_allWsSpace (lowerStr s.data) false
  have w1 := collapseGo_okPair_ww (lowerStr s.data) false
  obtain ⟨a2, w2, p2⟩ := sub1_out (collapseGo false (lowerStr s.data)) a1 w1
  obtain ⟨a3, w3, p3, q3⟩ :=
    sub2_out (sub1Go [] (collapseGo false (lowerStr s.data))) a2 w2 p2 false
  apply normalize_fixed
  · intro c hc
    have h1 := mem_sub2Go _ false c
      (mem_lstrip _ c (mem_rstrip _ c hc))
    have h2 := mem_sub1Go _ [] c h1
    rcases h2 with h2 | h2
    · simp at h2
    · rcases mem_collapseGo _ false c h2 with h3 | h3
      · obtain ⟨c0, -, rfl⟩ := List.mem_map.mp h3
        exact lowerChar_idem c0
      · rw [h3]
        decide
  · exact allWs_sub _ _
      (fun c hc => mem_lstrip _ c (mem_rstrip _ c hc)) a3
  · exact okPair_rstrip _ _ (okPair_lstrip _ _ w3)
  · exact okPair_rstrip _ _ (okPair_lstrip _ _ p3)
  · exact okPair_rstrip _ _ (okPair_lstrip _ _ q3)
  · apply lstrip_fixed
    intro d t hdt
    obtain ⟨t0, ht0⟩ := rstrip_head _ d t hdt
    exact lstrip_head _ d t0 ht0
  · exact rstrip_idem _

/-- C6: `normalize_header` is idempotent on every input (`None` or any
string), and the case, internal-spacing and percent-spacing variants of
the schema header `Avg VM Utilization %` all normalize to the same
value. -/
theorem C6_normalize_idempotent :
    (∀ x : Option String,
      normalize_header (some (normalize_header x)) = normalize_header x) ∧
    normalize_header (some "avg vm utilization %") =
      normalize_header (some "Avg VM Utilization%") ∧
    normalize_header (some "Avg VM Utilization%") =
      normalize_header (some "AVG VM UTILIZATION %") := by
  refine ⟨?_, by decide, by decide⟩
  intro x
  cases x with
  | none => decide
  | some s => exact normalize_idem_some s
